import Mathlib

/-!
# pgasio `record_block`: a shallow embedding and its verification

The embedded source is `include/pgasio/record_block.hpp`.  The block owns an
`unaligned_slab` (the arena), a vector of `byte_view`s and a column count.  Its
two operations, `read_data_row` and `read_rows`, pull bytes from a socket into
the arena and index the fields of each row-data message.

Conventions of the embedding

* A byte is a `Fin 256`; sizes (`std::size_t`) are `Nat`; the value of a wire
  integer is an `Int`.
* The socket is the list of bytes that have not been read yet.  A read that
  asks for more bytes than the list holds is a transport failure.
* `assert` and `throw` are failures: every operation yields the block and the
  socket as they stand when it ends, together with either a value or an error.
* The two loops are run with fuel; `none` means that the fuel ran out.  The
  totality lemmas show that the fuel handed out by `read_data_row` and
  `read_rows` is always enough.
* `pgasio/memory.hpp` and `pgasio/network.hpp` are not part of the embedded
  file; what `record_block` uses from them is modelled from the specification.
-/

namespace pgasio

/-- One `unsigned char`. -/
abbrev Byte := Fin 256

/-- The transport: the bytes still to be read, in arrival order. -/
abbrev Socket := List Byte

/-- The ways in which an operation of the block can fail. -/
inductive Error where
  /-- `assert(bytes <= remaining())` in `read_data_row`. -/
  | capacity_exceeded
  /-- The transport ended before the requested bytes arrived. -/
  | transport_closed
  /-- The cursor was asked to read past the end of its region. -/
  | read_past_end
  /-- `assert(m_fields.size() % m_columns == 0)` in `read_data_row`. -/
  | field_count_misaligned
  /-- `throw std::logic_error("Unknown message type: " + next.type)`. -/
  | unknown_message_type (tag : Byte)
  deriving DecidableEq, Repr

/-- Modelled from the spec: `byte_view` (declared in `pgasio/memory.hpp`), a
non-owning reference, offset and length, into the storage of the arena. -/
structure byte_view where
  offset : Nat
  size : Nat
  deriving DecidableEq, Repr

/-- Modelled from the spec: the default constructed `byte_view()`, the
zero-length view appended for a NULL field. -/
def byte_view.empty : byte_view := ⟨0, 0⟩

/-- The bytes of `memory` that the view `v` refers to. -/
def view_bytes (memory : List Byte) (v : byte_view) : List Byte :=
  (memory.drop v.offset).take v.size

/-- Store `data` into `memory` from position `offset` on. -/
def store_bytes (memory : List Byte) (offset : Nat) (data : List Byte) : List Byte :=
  memory.take offset ++ data ++ memory.drop (offset + data.length)

/-- Modelled from the spec: `unaligned_slab` (declared in `pgasio/memory.hpp`),
one contiguous byte store of fixed capacity with sequential allocation. -/
structure unaligned_slab where
  memory : List Byte
  m_allocated : Nat
  deriving DecidableEq, Repr

/-- Modelled from the spec: `unaligned_slab(bytes)`, a store of `bytes` bytes
none of which is allocated. -/
def unaligned_slab.create (bytes : Nat) : unaligned_slab :=
  ⟨List.replicate bytes 0, 0⟩

/-- Modelled from the spec: the fixed capacity of the arena. -/
def unaligned_slab.capacity (slab : unaligned_slab) : Nat := slab.memory.length

/-- Modelled from the spec: `unaligned_slab::allocated()`. -/
def unaligned_slab.allocated (slab : unaligned_slab) : Nat := slab.m_allocated

/-- Modelled from the spec: `unaligned_slab::remaining()`. -/
def unaligned_slab.remaining (slab : unaligned_slab) : Nat :=
  slab.memory.length - slab.m_allocated

/-- Modelled from the spec: `unaligned_slab::allocate(n)`, the next `n` fresh
bytes as a view; the caller has checked `n <= remaining()`. -/
def unaligned_slab.allocate (slab : unaligned_slab) (n : Nat) : byte_view × unaligned_slab :=
  (⟨slab.m_allocated, n⟩, { slab with m_allocated := slab.m_allocated + n })

/-- Modelled from the spec: `transfer(socket, region, bytes, yield)` of
`pgasio/network.hpp`, which fills the region with the next `bytes` bytes of the
transport and fails when the transport ends first. -/
def transfer (socket : Socket) (memory : List Byte) (region : byte_view) (bytes : Nat) :
    Socket × Except Error (List Byte) :=
  if bytes ≤ socket.length then
    (socket.drop bytes, .ok (store_bytes memory region.offset (socket.take bytes)))
  else
    ([], .error .transport_closed)

/-- Value of four bytes read as a big-endian unsigned integer. -/
def be_uint32 (b0 b1 b2 b3 : Byte) : Nat :=
  b0.val * 2 ^ 24 + b1.val * 2 ^ 16 + b2.val * 2 ^ 8 + b3.val

/-- Value of two bytes read as a big-endian unsigned integer. -/
def be_uint16 (b0 b1 : Byte) : Nat := b0.val * 2 ^ 8 + b1.val

/-- Two's complement reading of a 32-bit pattern. -/
def to_int32 (n : Nat) : Int := if n < 2 ^ 31 then (n : Int) else (n : Int) - 2 ^ 32

/-- Two's complement reading of a 16-bit pattern. -/
def to_int16 (n : Nat) : Int := if n < 2 ^ 15 then (n : Int) else (n : Int) - 2 ^ 16

/-- Conversion of a signed integer to `std::size_t` (64 bits, wrapping). -/
def to_size_t (i : Int) : Nat := (i % 2 ^ 64).toNat

/-- Modelled from the spec: the message header of `pgasio/network.hpp`, a type
tag and the size of the body. -/
structure header where
  type : Byte
  body_size : Nat
  deriving DecidableEq, Repr

/-- Modelled from the spec: `message_header(socket, yield)`, which reads the
one-byte type tag and the four-byte big-endian length of the next message; the
length counts itself, so the body size is the length less four. -/
def message_header (socket : Socket) : Socket × Except Error header :=
  match socket with
  | t :: b0 :: b1 :: b2 :: b3 :: rest => (rest, .ok ⟨t, be_uint32 b0 b1 b2 b3 - 4⟩)
  | _ => ([], .error .transport_closed)

/-- Modelled from the spec: `header::message_body(socket, yield)`, which reads
the whole body of the message off the transport. -/
def header.message_body (next : header) (socket : Socket) : Socket × Except Error (List Byte) :=
  if next.body_size ≤ socket.length then
    (socket.drop next.body_size, .ok (socket.take next.body_size))
  else
    ([], .error .transport_closed)

/-- Modelled from the spec: `decoder` (the cursor of `pgasio/network.hpp`), the
unread bytes of a region together with the position of the first of them in
the arena. -/
structure decoder where
  data : List Byte
  offset : Nat
  deriving DecidableEq, Repr

/-- Modelled from the spec: `decoder(region)`, a cursor over the region `v`. -/
def decoder.over (memory : List Byte) (v : byte_view) : decoder :=
  ⟨view_bytes memory v, v.offset⟩

/-- Modelled from the spec: `decoder::remaining()`. -/
def decoder.remaining (d : decoder) : Nat := d.data.length

/-- Modelled from the spec: `decoder::read_int16()`. -/
def decoder.read_int16 (d : decoder) : Except Error (Int × decoder) :=
  match d.data with
  | b0 :: b1 :: rest => .ok (to_int16 (be_uint16 b0 b1), ⟨rest, d.offset + 2⟩)
  | _ => .error .read_past_end

/-- Modelled from the spec: `decoder::read_int32()`. -/
def decoder.read_int32 (d : decoder) : Except Error (Int × decoder) :=
  match d.data with
  | b0 :: b1 :: b2 :: b3 :: rest => .ok (to_int32 (be_uint32 b0 b1 b2 b3), ⟨rest, d.offset + 4⟩)
  | _ => .error .read_past_end

/-- Modelled from the spec: `decoder::read_bytes(n)`, a view of the next `n`
bytes of the region. -/
def decoder.read_bytes (d : decoder) (n : Nat) : Except Error (byte_view × decoder) :=
  if n ≤ d.data.length then .ok (⟨d.offset, n⟩, ⟨d.data.drop n, d.offset + n⟩)
  else .error .read_past_end

/-- The class `record_block`. -/
structure record_block where
  m_columns : Nat
  m_fields : List byte_view
  m_buffer : unaligned_slab
  deriving DecidableEq, Repr

/-- The default constructor `record_block()`: no columns and an arena of no
bytes. -/
def record_block.empty : record_block := ⟨0, [], unaligned_slab.create 0⟩

/-- The constructor `record_block(column_count, record_size, bytes)`; the source
defaults `record_size` to 512 and `bytes` to `4u << 20`.  The call of
`m_fields.reserve` changes the capacity of the vector and none of its elements,
so the embedded vector is empty whatever `record_size` is. -/
def record_block.create (column_count : Nat) (record_size : Nat) (bytes : Nat) :
    record_block :=
  let _expected_records := (bytes + record_size - 1) / record_size
  ⟨column_count, [], unaligned_slab.create bytes⟩

/-- The conversion `operator bool`. -/
def record_block.to_bool (self : record_block) : Bool := decide (self.m_columns > 0)

/-- The member `remaining()`. -/
def record_block.remaining (self : record_block) : Nat := self.m_buffer.remaining

/-- The member `used_bytes()`. -/
def record_block.used_bytes (self : record_block) : Nat := self.m_buffer.allocated

/-- The member `fields()`. -/
def record_block.fields (self : record_block) : List byte_view := self.m_fields

/-- The block and the socket as an operation leaves them, with its outcome. -/
structure Run (α : Type) where
  block : record_block
  socket : Socket
  result : Except Error α

instance {ε α : Type} [DecidableEq ε] [DecidableEq α] : DecidableEq (Except ε α)
  | .ok a, .ok b => if h : a = b then isTrue (by rw [h]) else isFalse (by intro h2; cases h2; exact h rfl)
  | .error a, .error b => if h : a = b then isTrue (by rw [h]) else isFalse (by intro h2; cases h2; exact h rfl)
  | .ok _, .error _ => isFalse (by intro h; cases h)
  | .error _, .ok _ => isFalse (by intro h; cases h)

instance {α : Type} [DecidableEq α] : DecidableEq (Run α)
  | ⟨b1, s1, r1⟩, ⟨b2, s2, r2⟩ =>
    if h : b1 = b2 ∧ s1 = s2 ∧ r1 = r2 then isTrue (by rcases h with ⟨h1, h2, h3⟩; rw [h1, h2, h3])
    else isFalse (by intro h2; cases h2; exact h ⟨rfl, rfl, rfl⟩)

/-- The `while ( message.remaining() )` loop of `read_data_row`, with the vector
of fields as accumulator.  Each pass uses up one unit of fuel. -/
def decode_fields : Nat → decoder → List byte_view → Option (List byte_view × Except Error Unit)
  | fuel, message, fields =>
    if message.remaining = 0 then some (fields, .ok ())
    else
      match fuel with
      | 0 => none
      | fuel + 1 =>
        match message.read_int32 with
        | .error e => some (fields, .error e)
        | .ok (bytes, message) =>
          if bytes = -1 then
            decode_fields fuel message (fields ++ [byte_view.empty])
          else
            match message.read_bytes (to_size_t bytes) with
            | .error e => some (fields, .error e)
            | .ok (v, message) => decode_fields fuel message (fields ++ [v])

/-- The member `read_data_row(socket, bytes, yield)`. -/
def record_block.read_data_row (self : record_block) (socket : Socket) (bytes : Nat) :
    Option (Run Unit) :=
  if ¬ bytes ≤ self.remaining then
    some ⟨self, socket, .error .capacity_exceeded⟩
  else
    let (message_data, buffer) := self.m_buffer.allocate bytes
    match transfer socket buffer.memory message_data bytes with
    | (socket, .error e) => some ⟨{ self with m_buffer := buffer }, socket, .error e⟩
    | (socket, .ok memory) =>
      let self := { self with m_buffer := { buffer with memory := memory } }
      let message := decoder.over memory message_data
      match message.read_int16 with
      | .error e => some ⟨self, socket, .error e⟩
      | .ok (_, message) =>
        match decode_fields message.remaining message self.m_fields with
        | none => none
        | some (fields, .error e) => some ⟨{ self with m_fields := fields }, socket, .error e⟩
        | some (fields, .ok ()) =>
          let self := { self with m_fields := fields }
          if self.m_fields.length % self.m_columns = 0 then
            some ⟨self, socket, .ok ()⟩
          else
            some ⟨self, socket, .error .field_count_misaligned⟩

/-- The `do ... while ( bytes <= remaining() )` loop of `read_rows`.  Each pass
over the body uses up one unit of fuel.  The tags are the characters D (68) and
C (67). -/
def read_rows_loop : Nat → record_block → Socket → Nat → Option (Run Nat)
  | 0, _, _, _ => none
  | fuel + 1, self, socket, bytes =>
    match self.read_data_row socket bytes with
    | none => none
    | some ⟨self, socket, .error e⟩ => some ⟨self, socket, .error e⟩
    | some ⟨self, socket, .ok ()⟩ =>
      match message_header socket with
      | (socket, .error e) => some ⟨self, socket, .error e⟩
      | (socket, .ok next) =>
        if next.type = 68 then
          let bytes := next.body_size
          if bytes ≤ self.remaining then
            read_rows_loop fuel self socket bytes
          else
            some ⟨self, socket, .ok bytes⟩
        else if next.type = 67 then
          match next.message_body socket with
          | (socket, .error e) => some ⟨self, socket, .error e⟩
          | (socket, .ok _) => some ⟨self, socket, .ok 0⟩
        else
          some ⟨self, socket, .error (.unknown_message_type next.type)⟩

/-- The member `read_rows(socket, bytes, yield)`.  Every pass that loops back
has read a five-byte header, so one unit of fuel per unread byte, and one more,
is enough. -/
def record_block.read_rows (self : record_block) (socket : Socket) (bytes : Nat) :
    Option (Run Nat) :=
  read_rows_loop (socket.length + 1) self socket bytes

/-! ## Vocabulary of the statements

None of what follows is code of the repository.  It describes the wire format
of the specification, the passes of the fill loop, and the loop over blocks
that a caller of `read_rows` runs. -/

/-- State at the top of the body of the `do ... while` loop of `read_rows` once
`k` passes have looped back, when the loop gets that far: the block, the
socket and the byte count of the row that the next pass decodes. -/
def read_rows_at : Nat → record_block → Socket → Nat → Option (record_block × Socket × Nat)
  | 0, self, socket, bytes => some (self, socket, bytes)
  | k + 1, self, socket, bytes =>
    match self.read_data_row socket bytes with
    | some ⟨self, socket, .ok ()⟩ =>
      match message_header socket with
      | (socket, .ok next) =>
        if next.type = 68 ∧ next.body_size ≤ self.remaining then
          read_rows_at k self socket next.body_size
        else none
      | _ => none
    | _ => none

/-- The `k + 1`-th pass of the loop of `read_rows`, when the loop gets that far
and the pass gets as far as the header: the block as the decoded row left it,
the socket from which the header is then read, and the header. -/
def header_at (k : Nat) (self : record_block) (socket : Socket) (bytes : Nat) :
    Option (record_block × Socket × header) :=
  match read_rows_at k self socket bytes with
  | some (self, socket, bytes) =>
    match self.read_data_row socket bytes with
    | some ⟨self, socket, .ok ()⟩ =>
      match message_header socket with
      | (_, .ok next) => some (self, socket, next)
      | _ => none
    | _ => none
  | none => none

/-- A field of a row as the server sends it: NULL or a string of bytes. -/
abbrev Field := Option (List Byte)

/-- The low eight bits of a number. -/
def byte_of (n : Nat) : Byte := ⟨n % 256, Nat.mod_lt n (by decide)⟩

/-- Four bytes, big-endian. -/
def put_uint32 (n : Nat) : List Byte :=
  [byte_of (n / 2 ^ 24), byte_of (n / 2 ^ 16), byte_of (n / 2 ^ 8), byte_of n]

/-- Two bytes, big-endian. -/
def put_uint16 (n : Nat) : List Byte := [byte_of (n / 2 ^ 8), byte_of n]

/-- A field on the wire: the length -1 for NULL, otherwise the length and then
the bytes. -/
def encode_field : Field → List Byte
  | none => [255, 255, 255, 255]
  | some value => put_uint32 value.length ++ value

/-- The fields of a row on the wire, one after the other. -/
def encode_fields : List Field → List Byte
  | [] => []
  | f :: fs => encode_field f ++ encode_fields fs

/-- Body of a row-data message: the field count and then the fields. -/
def row_body (row : List Field) : List Byte := put_uint16 row.length ++ encode_fields row

/-- A message in its envelope: the type tag, the length (which counts itself)
and the body. -/
def message (tag : Byte) (body : List Byte) : List Byte :=
  tag :: (put_uint32 (body.length + 4) ++ body)

/-- What follows the body of the first row on the transport: the later rows as
row-data messages and then one command-complete message with body `done`. -/
def rows_tail : List (List Field) → List Byte → List Byte
  | [], done => message 67 done
  | row :: rows, done => message 68 (row_body row) ++ rows_tail rows done

/-- The transport as `read_rows` finds it when the header of the first row has
been read: the rows, the command-complete message, and whatever comes next. -/
def row_stream (first : List Field) (rows : List (List Field)) (done after : List Byte) :
    Socket :=
  row_body first ++ (rows_tail rows done ++ after)

/-- Sum of the body sizes of the rows. -/
def body_sizes : List (List Field) → Nat
  | [] => 0
  | row :: rows => (row_body row).length + body_sizes rows

/-- All fields of the rows in wire order. -/
def all_fields : List (List Field) → List Field
  | [] => []
  | row :: rows => row ++ all_fields rows

/-- A row can be sent: each string is short enough for a signed 32-bit length
and the body is short enough for the length of the envelope. -/
def sendable (row : List Field) : Prop :=
  (∀ f ∈ row, ∀ value, f = some value → value.length < 2 ^ 31) ∧
    (row_body row).length + 4 < 2 ^ 32

instance (row : List Field) : Decidable (sendable row) := by
  unfold sendable; infer_instance

/-- The view `v` into `memory` is the view of the field `f`: zero length for
NULL, otherwise exactly the bytes of the string. -/
def field_matches (memory : List Byte) (v : byte_view) : Field → Prop
  | none => v.size = 0
  | some value => v.size = value.length ∧ view_bytes memory v = value

/-- The bytes that each view of `fields()` refers to. -/
def record_block.field_values (self : record_block) : List (List Byte) :=
  self.fields.map (view_bytes self.m_buffer.memory)

/-- The bytes of a field; NULL has none. -/
def field_value : Field → List Byte
  | none => []
  | some value => value

/-- The loop over blocks that a caller of `read_rows` runs: make a block whose
capacity `capacity k bytes` is chosen from the number `k` of the block and the
byte count to start with, fill it, and go on with a new block while the count
that comes back is positive.  The result is the blocks in order and the socket
at the end; `none` when a block fails or the fuel runs out. -/
def read_blocks (column_count : Nat) (capacity : Nat → Nat → Nat) :
    Nat → Nat → Socket → Nat → Option (List record_block × Socket)
  | 0, _, _, _ => none
  | fuel + 1, k, socket, bytes =>
    match (record_block.create column_count 512 (capacity k bytes)).read_rows socket bytes with
    | some ⟨block, socket, .ok 0⟩ => some ([block], socket)
    | some ⟨block, socket, .ok (more + 1)⟩ =>
      match read_blocks column_count capacity fuel (k + 1) socket (more + 1) with
      | some (blocks, socket) => some (block :: blocks, socket)
      | none => none
    | _ => none

/-- The field values of several blocks, concatenated in order. -/
def blocks_values : List record_block → List (List Byte)
  | [] => []
  | block :: blocks => block.field_values ++ blocks_values blocks

/-- The views that decoding the fields of a row yields when the first length
tag stands at `offset` in the arena: the zero-length view for NULL, otherwise
the view of the bytes that follow the four-byte tag. -/
def field_views : Nat → List Field → List byte_view
  | _, [] => []
  | offset, none :: fs => byte_view.empty :: field_views (offset + 4) fs
  | offset, some value :: fs =>
    ⟨offset + 4, value.length⟩ :: field_views (offset + 4 + value.length) fs

/-- The block holds the fields `fs`: its views are the views of `fs` in order,
every view lies in the allocated part of the arena, and no more is allocated
than the arena has. -/
def record_block.holds (self : record_block) (fs : List Field) : Prop :=
  List.Forall₂ (field_matches self.m_buffer.memory) self.m_fields fs ∧
    (∀ v ∈ self.m_fields, v.offset + v.size ≤ self.m_buffer.m_allocated) ∧
    self.m_buffer.m_allocated ≤ self.m_buffer.memory.length

/-- The views `vs` tile the bytes from `o` to `e` as the fields of a row do:
each field is a four-byte length tag followed by its payload.  For a NULL field
the view is the zero-length view and the next tag follows the tag; otherwise
the view starts right after the tag and the next tag starts where the view
ends. -/
def tiles : Nat → List byte_view → Nat → Prop
  | o, [], e => o = e
  | o, v :: vs, e =>
    (v = byte_view.empty ∧ tiles (o + 4) vs e) ∨ (v.offset = o + 4 ∧ tiles (o + 4 + v.size) vs e)

instance tiles_decidable : ∀ (o : Nat) (vs : List byte_view) (e : Nat), Decidable (tiles o vs e)
  | o, [], e => inferInstanceAs (Decidable (o = e))
  | o, v :: vs, e =>
    have := tiles_decidable (o + 4) vs e
    have := tiles_decidable (o + 4 + v.size) vs e
    inferInstanceAs (Decidable ((v = byte_view.empty ∧ tiles (o + 4) vs e) ∨
      (v.offset = o + 4 ∧ tiles (o + 4 + v.size) vs e)))

/-- The positions of the four-byte length tags of a row whose first tag stands
at `o` and whose fields have the views `vs`. -/
def tag_offsets : Nat → List byte_view → List Nat
  | _, [] => []
  | o, v :: vs => o :: tag_offsets (o + 4 + v.size) vs

/-- The byte counts of the rows that the first `k + 1` passes of the loop of
`read_rows` decode: the count with which each pass starts. -/
def decoded_sizes (k : Nat) (self : record_block) (socket : Socket) (bytes : Nat) : List Nat :=
  (List.range (k + 1)).map fun j =>
    match read_rows_at j self socket bytes with
    | some (_, _, count) => count
    | none => 0

/-- What is left of a row body at a length tag cannot be a field: one to three
bytes, where the four-byte length ends in its middle, or a length below -1, or
a length above the number of bytes that follow the tag. -/
def bad_field : List Byte → Prop
  | [] => False
  | l0 :: l1 :: l2 :: l3 :: payload =>
    to_int32 (be_uint32 l0 l1 l2 l3) < -1 ∨
      (payload.length : Int) < to_int32 (be_uint32 l0 l1 l2 l3)
  | _ => True

instance bad_field_decidable : ∀ (tail : List Byte), Decidable (bad_field tail)
  | [] => isFalse (fun h => h)
  | [_] => isTrue trivial
  | [_, _] => isTrue trivial
  | [_, _, _] => isTrue trivial
  | l0 :: l1 :: l2 :: l3 :: payload =>
    inferInstanceAs (Decidable (to_int32 (be_uint32 l0 l1 l2 l3) < -1 ∨
      (payload.length : Int) < to_int32 (be_uint32 l0 l1 l2 l3)))

/-- The blocks that come from a block constructed with the given arguments:
the constructed block, and the block that `read_data_row` or `read_rows` leaves
of such a block, whether the call returns or fails. -/
inductive reachable (column_count record_size capacity : Nat) : record_block → Prop where
  | create : reachable column_count record_size capacity
      (record_block.create column_count record_size capacity)
  | read_data_row (b : record_block) (s : Socket) (n : Nat) (r : Run Unit) :
      reachable column_count record_size capacity b → b.read_data_row s n = some r →
      reachable column_count record_size capacity r.block
  | read_rows (b : record_block) (s : Socket) (n : Nat) (r : Run Nat) :
      reachable column_count record_size capacity b → b.read_rows s n = some r →
      reachable column_count record_size capacity r.block

/-! ## Sample inputs -/

/-- A block of two columns with an arena of 16 bytes. -/
def sample_block_two : record_block := record_block.create 2 512 16

/-- A block of one column with an arena of 16 bytes. -/
def sample_block_one : record_block := record_block.create 1 512 16

/-- The body of the row ("ab", NULL), a command-complete message with a body of
two bytes, and the first byte of what follows. -/
def sample_stream_ab : Socket :=
  [0, 2, 0, 0, 0, 2, 97, 98, 255, 255, 255, 255, 67, 0, 0, 0, 6, 1, 2, 9]

/-- The body of a row of one NULL field, the header of a row-data message with
a body of 50 bytes, and the first three bytes of that body. -/
def sample_stream_big : Socket := [0, 1, 255, 255, 255, 255, 68, 0, 0, 0, 54, 1, 2, 9]

/-- The body of a row of one NULL field, the header of a message with the tag
X (88), and three more bytes. -/
def sample_stream_bad : Socket := [0, 1, 255, 255, 255, 255, 88, 0, 0, 0, 4, 1, 2, 9]

/-- The block `sample_block_two` once the row ("ab", NULL) is decoded. -/
def sample_block_ab : record_block :=
  ⟨2, [⟨6, 2⟩, ⟨0, 0⟩], ⟨[0, 2, 0, 0, 0, 2, 97, 98, 255, 255, 255, 255, 0, 0, 0, 0], 12⟩⟩

/-- The block `sample_block_one` once the row of one NULL field is decoded; 10
of its 16 bytes remain. -/
def sample_block_null : record_block :=
  ⟨1, [⟨0, 0⟩], ⟨[0, 1, 255, 255, 255, 255, 0, 0, 0, 0, 0, 0, 0, 0, 0, 0], 6⟩⟩

/-- The stream `sample_stream_ab` with other bytes where the field count of the
row stands. -/
def sample_stream_ab_other : Socket :=
  [9, 9, 0, 0, 0, 2, 97, 98, 255, 255, 255, 255, 67, 0, 0, 0, 6, 1, 2, 9]

/-- The body of a row of one NULL field followed by the length -2, and one more
byte. -/
def sample_stream_negative : Socket := [0, 1, 255, 255, 255, 255, 255, 255, 255, 254, 7]

/-- The body of a row whose one field is the byte 7, and a command-complete
message with an empty body. -/
def sample_stream_seven : Socket := [0, 1, 0, 0, 0, 1, 7, 67, 0, 0, 0, 4]

/-- The body of a row of a NULL field and the field of the one byte 7, and a
command-complete message with an empty body. -/
def sample_stream_null_then : Socket := [0, 2, 255, 255, 255, 255, 0, 0, 0, 1, 7, 67, 0, 0, 0, 4]

/-! ## Arithmetic of the wire integers -/

theorem be_uint32_put (n : Nat) (h : n < 2 ^ 32) :
    be_uint32 (byte_of (n / 2 ^ 24)) (byte_of (n / 2 ^ 16)) (byte_of (n / 2 ^ 8)) (byte_of n)
      = n := by
  simp only [be_uint32, byte_of]
  norm_num at h ⊢
  omega

theorem to_int32_small (n : Nat) (h : n < 2 ^ 31) : to_int32 n = (n : Int) := by
  unfold to_int32
  rw [if_pos h]

theorem to_size_t_nat (n : Nat) (h : n < 2 ^ 64) : to_size_t (n : Int) = n := by
  unfold to_size_t
  have : ((n : Int) % 2 ^ 64) = (n : Int) := Int.emod_eq_of_lt (by omega) (by exact_mod_cast h)
  rw [this]; simp

/-! ## Views and the arena -/

theorem view_bytes_mid (a b c : List Byte) :
    view_bytes (a ++ b ++ c) ⟨a.length, b.length⟩ = b := by
  simp [view_bytes]

theorem view_bytes_store (mem : List Byte) (a : Nat) (data : List Byte) (v : byte_view)
    (hv : v.offset + v.size ≤ a) (ha : a ≤ mem.length) :
    view_bytes (store_bytes mem a data) v = view_bytes mem v := by
  unfold view_bytes store_bytes
  apply List.ext_getElem?
  intro i
  simp only [List.getElem?_take, List.getElem?_drop, List.append_assoc]
  by_cases hi : i < v.size
  · simp only [hi, if_true]
    rw [List.getElem?_append_left (by simp; omega)]
    rw [List.getElem?_take]; simp; omega
  · simp [hi]

theorem length_store_bytes (mem : List Byte) (a : Nat) (data : List Byte)
    (h : a + data.length ≤ mem.length) : (store_bytes mem a data).length = mem.length := by
  simp [store_bytes]; omega

/-! ## The cursor and the decoding of one row -/

theorem read_int32_remaining (d d2 : decoder) (i : Int) (h : d.read_int32 = .ok (i, d2)) :
    d2.remaining + 4 = d.remaining := by
  unfold decoder.read_int32 at h
  split at h
  · rename_i b0 b1 b2 b3 rest hd
    cases h
    simp [decoder.remaining, hd]
  · cases h

theorem read_bytes_remaining (d d2 : decoder) (n : Nat) (v : byte_view)
    (h : d.read_bytes n = .ok (v, d2)) : d2.remaining ≤ d.remaining := by
  unfold decoder.read_bytes at h
  split at h
  · cases h
    simp [decoder.remaining]
  · cases h

theorem decode_fields_total : ∀ (fuel : Nat) (d : decoder) (acc : List byte_view),
    d.remaining ≤ fuel → ∃ r, decode_fields fuel d acc = some r := by
  intro fuel
  induction fuel with
  | zero =>
    intro d acc h
    unfold decode_fields
    have : d.remaining = 0 := by omega
    simp [this]
  | succ fuel ih =>
    intro d acc h
    unfold decode_fields
    by_cases h0 : d.remaining = 0
    · simp [h0]
    · simp only [h0, if_false]
      cases h32 : d.read_int32 with
      | error e => simp
      | ok p =>
        obtain ⟨i, d2⟩ := p
        have hr := read_int32_remaining d d2 i h32
        simp only
        by_cases hi : i = -1
        · simp only [hi, if_true]
          exact ih d2 _ (by omega)
        · simp only [hi, if_false]
          cases hb : d2.read_bytes (to_size_t i) with
          | error e => simp
          | ok q =>
            obtain ⟨v, d3⟩ := q
            have hr2 := read_bytes_remaining d2 d3 _ v hb
            simp only
            exact ih d3 _ (by omega)

theorem decode_fields_append : ∀ (fuel : Nat) (d : decoder) (acc fields : List byte_view)
    (res : Except Error Unit), decode_fields fuel d acc = some (fields, res) →
    ∃ more, fields = acc ++ more := by
  intro fuel
  induction fuel with
  | zero =>
    intro d acc fields res h
    unfold decode_fields at h
    by_cases h0 : d.remaining = 0
    · simp [h0] at h
      exact ⟨[], by simp [h.1]⟩
    · simp [h0] at h
  | succ fuel ih =>
    intro d acc fields res h
    unfold decode_fields at h
    by_cases h0 : d.remaining = 0
    · simp [h0] at h
      exact ⟨[], by simp [h.1]⟩
    · simp only [h0, if_false] at h
      cases h32 : d.read_int32 with
      | error e =>
        simp [h32] at h
        exact ⟨[], by simp [h.1]⟩
      | ok p =>
        obtain ⟨i, d2⟩ := p
        simp only [h32] at h
        by_cases hi : i = -1
        · simp only [hi, if_true] at h
          obtain ⟨more, hm⟩ := ih d2 _ _ _ h
          exact ⟨byte_view.empty :: more, by simp [hm]⟩
        · simp only [hi, if_false] at h
          cases hb : d2.read_bytes (to_size_t i) with
          | error e =>
            simp [hb] at h
            exact ⟨[], by simp [h.1]⟩
          | ok q =>
            obtain ⟨v, d3⟩ := q
            simp only [hb] at h
            obtain ⟨more, hm⟩ := ih d3 _ _ _ h
            exact ⟨v :: more, by simp [hm]⟩

theorem read_data_row_cases (b : record_block) (s : Socket) (n : Nat) (r : Run Unit)
    (h : b.read_data_row s n = some r) :
    (¬ n ≤ b.remaining ∧ r = ⟨b, s, .error .capacity_exceeded⟩) ∨
    (n ≤ b.remaining ∧ ¬ n ≤ s.length ∧
      r = ⟨{ b with m_buffer := ⟨b.m_buffer.memory, b.m_buffer.m_allocated + n⟩ }, [],
            .error .transport_closed⟩) ∨
    (n ≤ b.remaining ∧ n ≤ s.length ∧ r.socket = s.drop n ∧
      r.block.m_columns = b.m_columns ∧
      r.block.m_buffer = ⟨store_bytes b.m_buffer.memory b.m_buffer.m_allocated (s.take n),
        b.m_buffer.m_allocated + n⟩ ∧
      (∃ more, r.block.m_fields = b.m_fields ++ more) ∧
      (r.result = .ok () → r.block.m_fields.length % b.m_columns = 0)) := by
  unfold record_block.read_data_row at h
  by_cases hcap : n ≤ b.remaining
  · simp only [hcap, not_true_eq_false, if_false, unaligned_slab.allocate, transfer] at h
    by_cases hs : n ≤ s.length
    · simp only [hs, if_true] at h
      right; right
      refine ⟨hcap, hs, ?_⟩
      split at h
      · cases h; simp
      · rename_i x i d2 h16
        split at h
        · cases h
        · rename_i fields e hd
          cases h
          obtain ⟨more, hm⟩ := decode_fields_append _ _ _ _ _ hd
          simp [hm]
        · rename_i fields hd
          obtain ⟨more, hm⟩ := decode_fields_append _ _ _ _ _ hd
          split at h
          · rename_i hmod
            cases h
            simp at hmod ⊢
            exact ⟨⟨more, hm⟩, hmod⟩
          · cases h
            simp [hm]
    · simp only [hs, if_false] at h
      right; left
      cases h
      exact ⟨hcap, hs, rfl⟩
  · simp only [hcap, not_false_eq_true, if_true] at h
    left
    cases h
    exact ⟨hcap, rfl⟩

/-! ## The fill loop: totality and fuel -/

theorem read_data_row_total (b : record_block) (s : Socket) (n : Nat) :
    ∃ r, b.read_data_row s n = some r := by
  unfold record_block.read_data_row
  by_cases hcap : n ≤ b.remaining
  · simp only [hcap, not_true_eq_false, if_false, unaligned_slab.allocate, transfer]
    by_cases hs : n ≤ s.length
    · simp only [hs, if_true]
      split
      · exact ⟨_, rfl⟩
      · rename_i x i d2 h16
        obtain ⟨⟨fields, res⟩, hd⟩ := decode_fields_total d2.remaining d2 b.m_fields (le_refl _)
        rw [hd]
        cases res with
        | error e => exact ⟨_, rfl⟩
        | ok u =>
          simp only
          split <;> exact ⟨_, rfl⟩
    · simp only [hs, if_false]
      exact ⟨_, rfl⟩
  · simp only [hcap, not_false_eq_true, if_true]
    exact ⟨_, rfl⟩

theorem read_data_row_socket (b : record_block) (s : Socket) (n : Nat) (r : Run Unit)
    (h : b.read_data_row s n = some r) : r.socket.length ≤ s.length := by
  rcases read_data_row_cases b s n r h with ⟨_, hr⟩ | ⟨_, _, hr⟩ | ⟨_, _, hr, _⟩
  · rw [hr]
  · rw [hr]; simp
  · rw [hr]; simp

theorem message_header_ok (s s2 : Socket) (next : header)
    (h : message_header s = (s2, .ok next)) : s2 = s.drop 5 ∧ 5 ≤ s.length := by
  unfold message_header at h
  split at h
  · cases h; simp
  · cases h

theorem message_header_error (s s2 : Socket) (e : Error)
    (h : message_header s = (s2, .error e)) : e = .transport_closed := by
  unfold message_header at h
  split at h
  · cases h
  · cases h; rfl

theorem read_rows_loop_total : ∀ (fuel : Nat) (b : record_block) (s : Socket) (n : Nat),
    s.length < fuel → ∃ r, read_rows_loop fuel b s n = some r := by
  intro fuel
  induction fuel with
  | zero => intro b s n h; omega
  | succ fuel ih =>
    intro b s n h
    obtain ⟨⟨b1, s1, res⟩, hrd⟩ := read_data_row_total b s n
    have hlen := read_data_row_socket b s n _ hrd
    unfold read_rows_loop
    rw [hrd]
    cases res with
    | error e => exact ⟨_, rfl⟩
    | ok u =>
      cases u
      simp only
      cases hh : message_header s1 with
      | mk s2 hres =>
        cases hres with
        | error e => exact ⟨_, rfl⟩
        | ok next =>
          obtain ⟨hs2, h5⟩ := message_header_ok _ _ _ hh
          simp only
          by_cases ht : next.type = 68
          · simp only [ht, if_true]
            by_cases hb : next.body_size ≤ b1.remaining
            · simp only [hb, if_true]
              apply ih
              simp at hlen
              rw [hs2]; simp; omega
            · simp only [hb, if_false]
              exact ⟨_, rfl⟩
          · simp only [ht, if_false]
            by_cases hc : next.type = 67
            · simp only [hc, if_true]
              unfold header.message_body
              split <;> exact ⟨_, rfl⟩
            · simp only [hc, if_false]
              exact ⟨_, rfl⟩

theorem read_rows_total (b : record_block) (s : Socket) (n : Nat) :
    ∃ r, b.read_rows s n = some r :=
  read_rows_loop_total _ b s n (Nat.lt_succ_self _)

theorem read_rows_loop_mono : ∀ (fuel : Nat) (b : record_block) (s : Socket) (n : Nat)
    (r : Run Nat), read_rows_loop fuel b s n = some r → read_rows_loop (fuel + 1) b s n = some r := by
  intro fuel
  induction fuel with
  | zero => intro b s n r h; simp [read_rows_loop] at h
  | succ fuel ih =>
    intro b s n r h
    rw [read_rows_loop] at h ⊢
    cases hrd : b.read_data_row s n with
    | none => rw [hrd] at h; simp at h
    | some r1 =>
      obtain ⟨b1, s1, res⟩ := r1
      rw [hrd] at h
      cases res with
      | error e => exact h
      | ok u =>
        cases u
        simp only at h ⊢
        cases hh : message_header s1 with
        | mk s2 hres =>
          rw [hh] at h
          cases hres with
          | error e => exact h
          | ok next =>
            simp only at h ⊢
            by_cases ht : next.type = 68
            · simp only [ht, if_true] at h ⊢
              by_cases hb : next.body_size ≤ b1.remaining
              · simp only [hb, if_true] at h ⊢
                exact ih _ _ _ _ h
              · simp only [hb, if_false] at h ⊢
                exact h
            · simp only [ht, if_false] at h ⊢
              exact h

theorem read_rows_loop_more (fuel : Nat) (b : record_block) (s : Socket) (n : Nat)
    (r : Run Nat) (h : read_rows_loop fuel b s n = some r) :
    ∀ j, read_rows_loop (fuel + j) b s n = some r := by
  intro j
  induction j with
  | zero => exact h
  | succ j ih => exact read_rows_loop_mono _ _ _ _ _ ih

theorem read_rows_loop_unique (f1 f2 : Nat) (b : record_block) (s : Socket) (n : Nat)
    (r1 r2 : Run Nat) (h1 : read_rows_loop f1 b s n = some r1)
    (h2 : read_rows_loop f2 b s n = some r2) : r1 = r2 := by
  have a := read_rows_loop_more f1 b s n r1 h1 f2
  have c := read_rows_loop_more f2 b s n r2 h2 f1
  rw [Nat.add_comm] at c
  rw [a] at c
  exact Option.some.inj c

/-! ## The fill loop: its passes -/

theorem decode_fields_error : ∀ (fuel : Nat) (d : decoder) (acc fields : List byte_view)
    (e : Error), decode_fields fuel d acc = some (fields, .error e) → e = .read_past_end := by
  intro fuel
  induction fuel with
  | zero =>
    intro d acc fields e h
    unfold decode_fields at h
    by_cases h0 : d.remaining = 0
    · simp [h0] at h
    · simp [h0] at h
  | succ fuel ih =>
    intro d acc fields e h
    unfold decode_fields at h
    by_cases h0 : d.remaining = 0
    · simp [h0] at h
    · simp only [h0, if_false] at h
      cases h32 : d.read_int32 with
      | error e2 =>
        simp only [h32] at h
        unfold decoder.read_int32 at h32
        split at h32
        · cases h32
        · cases h32; cases h; rfl
      | ok p =>
        obtain ⟨i, d2⟩ := p
        simp only [h32] at h
        by_cases hi : i = -1
        · simp only [hi, if_true] at h
          exact ih d2 _ _ _ h
        · simp only [hi, if_false] at h
          cases hb : d2.read_bytes (to_size_t i) with
          | error e2 =>
            simp only [hb] at h
            unfold decoder.read_bytes at hb
            split at hb
            · cases hb
            · cases hb; cases h; rfl
          | ok q =>
            obtain ⟨v, d3⟩ := q
            simp only [hb] at h
            exact ih d3 _ _ _ h

theorem read_data_row_error (b : record_block) (s : Socket) (n : Nat) (r : Run Unit) (e : Error)
    (h : b.read_data_row s n = some r) (he : r.result = .error e) :
    ∀ t, e ≠ .unknown_message_type t := by
  intro t
  unfold record_block.read_data_row at h
  by_cases hcap : n ≤ b.remaining
  · simp only [hcap, not_true_eq_false, if_false, unaligned_slab.allocate, transfer] at h
    by_cases hs : n ≤ s.length
    · simp only [hs, if_true] at h
      split at h
      · rename_i x e2 h16
        cases h
        unfold decoder.read_int16 at h16
        split at h16
        · cases h16
        · cases h16; cases he; simp
      · rename_i x i d2 h16
        split at h
        · cases h
        · rename_i fields e2 hd
          cases h
          have := decode_fields_error _ _ _ _ _ hd
          cases he
          rw [this]; simp
        · rename_i fields hd
          split at h
          · cases h; cases he
          · cases h; cases he; simp
    · simp only [hs, if_false] at h
      cases h; cases he; simp
  · simp only [hcap, not_false_eq_true, if_true] at h
    cases h; cases he; simp

theorem header_at_zero (b : record_block) (s : Socket) (n : Nat) (b1 : record_block)
    (s1 s2 : Socket) (next : header) (hrd : b.read_data_row s n = some ⟨b1, s1, .ok ()⟩)
    (hh : message_header s1 = (s2, .ok next)) : header_at 0 b s n = some (b1, s1, next) := by
  simp [header_at, read_rows_at, hrd, hh]

theorem header_at_succ (k : Nat) (b : record_block) (s : Socket) (n : Nat) (b1 : record_block)
    (s1 s2 : Socket) (next : header) (hrd : b.read_data_row s n = some ⟨b1, s1, .ok ()⟩)
    (hh : message_header s1 = (s2, .ok next)) (ht : next.type = 68)
    (hb : next.body_size ≤ b1.remaining) :
    header_at (k + 1) b s n = header_at k b1 s2 next.body_size := by
  simp [header_at, read_rows_at, hrd, hh, ht, hb]

theorem header_at_first (k : Nat) (b : record_block) (s : Socket) (n : Nat)
    (x : record_block × Socket × header) (h : header_at k b s n = some x) :
    ∃ b1 s1 next, b.read_data_row s n = some ⟨b1, s1, .ok ()⟩ ∧
      message_header s1 = (s1.drop 5, .ok next) ∧
      (k = 0 → x = (b1, s1, next)) ∧
      (∀ j, k = j + 1 → next.type = 68 ∧ next.body_size ≤ b1.remaining ∧
        header_at j b1 (s1.drop 5) next.body_size = some x) := by
  cases k with
  | zero =>
    simp only [header_at, read_rows_at] at h
    cases hrd : b.read_data_row s n with
    | none => rw [hrd] at h; simp at h
    | some r1 =>
      obtain ⟨b1, s1, res⟩ := r1
      rw [hrd] at h
      cases res with
      | error e => simp at h
      | ok u =>
        cases u
        simp only at h
        cases hh : message_header s1 with
        | mk s2 hres =>
          rw [hh] at h
          cases hres with
          | error e => simp at h
          | ok next =>
            simp only [Option.some.injEq] at h
            obtain ⟨hs2, -⟩ := message_header_ok _ _ _ hh
            refine ⟨b1, s1, next, rfl, ?_, fun _ => h.symm, ?_⟩
            · rw [← hs2]; exact hh
            · intro j hj; omega
  | succ k =>
    have h0 := h
    simp only [header_at, read_rows_at] at h
    cases hrd : b.read_data_row s n with
    | none => rw [hrd] at h; simp at h
    | some r1 =>
      obtain ⟨b1, s1, res⟩ := r1
      rw [hrd] at h
      cases res with
      | error e => simp at h
      | ok u =>
        cases u
        simp only at h
        cases hh : message_header s1 with
        | mk s2 hres =>
          rw [hh] at h
          cases hres with
          | error e => simp at h
          | ok next =>
            simp only at h
            obtain ⟨hs2, -⟩ := message_header_ok _ _ _ hh
            by_cases hc : next.type = 68 ∧ next.body_size ≤ b1.remaining
            · refine ⟨b1, s1, next, rfl, ?_, fun hk => by omega, ?_⟩
              · rw [← hs2]; exact hh
              · intro j hj
                have hj2 : j = k := by omega
                subst hj2
                refine ⟨hc.1, hc.2, ?_⟩
                rw [← hs2, ← header_at_succ j b s n b1 s1 s2 next hrd hh hc.1 hc.2]
                exact h0
            · simp [hc] at h

theorem read_rows_loop_step (f : Nat) (b : record_block) (s : Socket) (n : Nat)
    (b1 : record_block) (s1 : Socket) (next : header)
    (hrd : b.read_data_row s n = some ⟨b1, s1, .ok ()⟩)
    (hh : message_header s1 = (s1.drop 5, .ok next)) :
    read_rows_loop (f + 1) b s n =
      if next.type = 68 then
        if next.body_size ≤ b1.remaining then read_rows_loop f b1 (s1.drop 5) next.body_size
        else some ⟨b1, s1.drop 5, .ok next.body_size⟩
      else if next.type = 67 then
        if next.body_size ≤ (s1.drop 5).length then
          some ⟨b1, (s1.drop 5).drop next.body_size, .ok 0⟩
        else some ⟨b1, [], .error .transport_closed⟩
      else some ⟨b1, s1.drop 5, .error (.unknown_message_type next.type)⟩ := by
  rw [read_rows_loop, hrd]
  simp only [hh]
  by_cases ht : next.type = 68
  · simp only [ht, if_true]
  · simp only [ht, if_false]
    by_cases hc : next.type = 67
    · simp only [hc, if_true, header.message_body]
      by_cases hl : next.body_size ≤ (List.drop 5 s1).length
      · simp only [hl, if_true]
      · simp only [hl, if_false]
    · simp only [hc, if_false]

theorem read_rows_loop_header_at : ∀ (k : Nat) (b : record_block) (s : Socket) (n : Nat)
    (b1 : record_block) (s1 : Socket) (next : header),
    header_at k b s n = some (b1, s1, next) → ∀ f,
    read_rows_loop (f + k + 1) b s n =
      if next.type = 68 then
        if next.body_size ≤ b1.remaining then read_rows_loop f b1 (s1.drop 5) next.body_size
        else some ⟨b1, s1.drop 5, .ok next.body_size⟩
      else if next.type = 67 then
        if next.body_size ≤ (s1.drop 5).length then
          some ⟨b1, (s1.drop 5).drop next.body_size, .ok 0⟩
        else some ⟨b1, [], .error .transport_closed⟩
      else some ⟨b1, s1.drop 5, .error (.unknown_message_type next.type)⟩ := by
  intro k
  induction k with
  | zero =>
    intro b s n b1 s1 next h f
    obtain ⟨b2, s2, next2, hrd, hh, hx, -⟩ := header_at_first 0 b s n _ h
    have := hx rfl
    cases this
    exact read_rows_loop_step f b s n _ _ _ hrd hh
  | succ k ih =>
    intro b s n b1 s1 next h f
    obtain ⟨b2, s2, next2, hrd, hh, -, hx⟩ := header_at_first (k + 1) b s n _ h
    obtain ⟨ht, hb, hk⟩ := hx k rfl
    have := read_rows_loop_step (f + k + 1) b s n _ _ _ hrd hh
    rw [show f + (k + 1) + 1 = f + k + 1 + 1 by omega, this]
    simp only [ht, hb, if_true]
    exact ih _ _ _ _ _ _ hk f

theorem read_rows_loop_end : ∀ (f : Nat) (b : record_block) (s : Socket) (n : Nat) (r : Run Nat),
    read_rows_loop f b s n = some r →
    (∃ e, r.result = .error e ∧ ∀ t, e ≠ .unknown_message_type t) ∨
    (∃ k b1 s1 next, header_at k b s n = some (b1, s1, next) ∧ r.block = b1 ∧
      ((next.type = 68 ∧ b1.remaining < next.body_size ∧ r.socket = s1.drop 5 ∧
          r.result = .ok next.body_size) ∨
       (next.type = 67 ∧ next.body_size ≤ (s1.drop 5).length ∧
          r.socket = (s1.drop 5).drop next.body_size ∧ r.result = .ok 0) ∨
       (next.type ≠ 68 ∧ next.type ≠ 67 ∧ r.socket = s1.drop 5 ∧
          r.result = .error (.unknown_message_type next.type)))) := by
  intro f
  induction f with
  | zero => intro b s n r h; simp [read_rows_loop] at h
  | succ f ih =>
    intro b s n r h
    cases hrd : b.read_data_row s n with
    | none => rw [read_rows_loop, hrd] at h; simp at h
    | some r1 =>
      obtain ⟨b1, s1, res⟩ := r1
      cases res with
      | error e =>
        rw [read_rows_loop, hrd] at h
        simp only [Option.some.injEq] at h
        left
        exact ⟨e, by rw [← h], read_data_row_error b s n _ e hrd rfl⟩
      | ok u =>
        cases u
        cases hh : message_header s1 with
        | mk s2 hres =>
          cases hres with
          | error e =>
            rw [read_rows_loop, hrd] at h
            simp only [hh, Option.some.injEq] at h
            left
            refine ⟨e, by rw [← h], ?_⟩
            rw [message_header_error _ _ _ hh]
            intro t; simp
          | ok next =>
            obtain ⟨hs2, -⟩ := message_header_ok _ _ _ hh
            subst hs2
            rw [read_rows_loop_step f b s n _ _ _ hrd hh] at h
            have h0 := header_at_zero b s n b1 s1 _ next hrd hh
            by_cases ht : next.type = 68
            · simp only [ht, if_true] at h
              by_cases hb : next.body_size ≤ b1.remaining
              · simp only [hb, if_true] at h
                rcases ih _ _ _ _ h with hl | ⟨k, b2, s2, next2, hk, hrest⟩
                · left; exact hl
                · right
                  refine ⟨k + 1, b2, s2, next2, ?_, hrest⟩
                  rw [header_at_succ k b s n b1 s1 _ next hrd hh ht hb]
                  exact hk
              · simp only [hb, if_false, Option.some.injEq] at h
                right
                refine ⟨0, b1, s1, next, h0, by rw [← h], Or.inl ⟨ht, by omega, ?_, ?_⟩⟩
                · rw [← h]
                · rw [← h]
            · simp only [ht, if_false] at h
              by_cases hc : next.type = 67
              · simp only [hc, if_true] at h
                by_cases hl : next.body_size ≤ (List.drop 5 s1).length
                · simp only [hl, if_true, Option.some.injEq] at h
                  right
                  refine ⟨0, b1, s1, next, h0, by rw [← h], Or.inr (Or.inl ⟨hc, hl, ?_, ?_⟩)⟩
                  · rw [← h]
                  · rw [← h]
                · simp only [hl, if_false, Option.some.injEq] at h
                  left
                  refine ⟨.transport_closed, by rw [← h], ?_⟩
                  intro t; simp
              · simp only [hc, if_false, Option.some.injEq] at h
                right
                refine ⟨0, b1, s1, next, h0, by rw [← h], Or.inr (Or.inr ⟨ht, hc, ?_, ?_⟩)⟩
                · rw [← h]
                · rw [← h]

/-! ## Invariants of the fill loop -/

theorem header_at_last (k : Nat) (b : record_block) (s : Socket) (n : Nat) (b1 : record_block)
    (s1 : Socket) (next : header) (h : header_at k b s n = some (b1, s1, next)) :
    ∃ bk sk nk, read_rows_at k b s n = some (bk, sk, nk) ∧
      bk.read_data_row sk nk = some ⟨b1, s1, .ok ()⟩ ∧
      message_header s1 = (s1.drop 5, .ok next) := by
  unfold header_at at h
  cases hk : read_rows_at k b s n with
  | none => rw [hk] at h; simp at h
  | some x =>
    obtain ⟨bk, sk, nk⟩ := x
    rw [hk] at h
    simp only at h
    cases hrd : bk.read_data_row sk nk with
    | none => rw [hrd] at h; simp at h
    | some r1 =>
      obtain ⟨b2, s2, res⟩ := r1
      rw [hrd] at h
      cases res with
      | error e => simp at h
      | ok u =>
        cases u
        simp only at h
        cases hh : message_header s2 with
        | mk s3 hres =>
          rw [hh] at h
          cases hres with
          | error e => simp at h
          | ok next2 =>
            simp only [Option.some.injEq, Prod.mk.injEq] at h
            obtain ⟨hb, hs, hn⟩ := h
            subst hb hs hn
            obtain ⟨hs3, -⟩ := message_header_ok _ _ _ hh
            subst hs3
            exact ⟨bk, sk, nk, rfl, hrd, hh⟩

theorem read_rows_at_invariant (P : record_block → Prop)
    (step : ∀ (b : record_block) (s : Socket) (n : Nat) (r : Run Unit),
      P b → b.read_data_row s n = some r → P r.block) :
    ∀ (k : Nat) (b : record_block) (s : Socket) (n : Nat) (bk : record_block) (sk : Socket)
      (nk : Nat), P b → read_rows_at k b s n = some (bk, sk, nk) → P bk := by
  intro k
  induction k with
  | zero =>
    intro b s n bk sk nk hP h
    simp only [read_rows_at, Option.some.injEq, Prod.mk.injEq] at h
    rw [← h.1]; exact hP
  | succ k ih =>
    intro b s n bk sk nk hP h
    unfold read_rows_at at h
    cases hrd : b.read_data_row s n with
    | none => rw [hrd] at h; simp at h
    | some r1 =>
      obtain ⟨b2, s2, res⟩ := r1
      rw [hrd] at h
      cases res with
      | error e => simp at h
      | ok u =>
        cases u
        simp only at h
        cases hh : message_header s2 with
        | mk s3 hres =>
          rw [hh] at h
          cases hres with
          | error e => simp at h
          | ok next2 =>
            simp only at h
            by_cases hc : next2.type = 68 ∧ next2.body_size ≤ b2.remaining
            · simp only [hc, and_self, if_true] at h
              exact ih _ _ _ _ _ _ (step b s n _ hP hrd) h
            · simp only [hc, if_false] at h
              cases h

theorem read_rows_loop_invariant (P : record_block → Prop)
    (step : ∀ (b : record_block) (s : Socket) (n : Nat) (r : Run Unit),
      P b → b.read_data_row s n = some r → P r.block) :
    ∀ (f : Nat) (b : record_block) (s : Socket) (n : Nat) (r : Run Nat),
      P b → read_rows_loop f b s n = some r → P r.block := by
  intro f
  induction f with
  | zero => intro b s n r _ h; simp [read_rows_loop] at h
  | succ f ih =>
    intro b s n r hP h
    rw [read_rows_loop] at h
    cases hrd : b.read_data_row s n with
    | none => rw [hrd] at h; simp at h
    | some r1 =>
      have hP1 := step b s n r1 hP hrd
      obtain ⟨b1, s1, res⟩ := r1
      rw [hrd] at h
      cases res with
      | error e =>
        simp only [Option.some.injEq] at h
        rw [← h]; exact hP1
      | ok u =>
        cases u
        simp only at h
        cases hh : message_header s1 with
        | mk s2 hres =>
          rw [hh] at h
          cases hres with
          | error e =>
            simp only [Option.some.injEq] at h
            rw [← h]; exact hP1
          | ok next =>
            simp only at h
            by_cases ht : next.type = 68
            · simp only [ht, if_true] at h
              by_cases hb : next.body_size ≤ b1.remaining
              · simp only [hb, if_true] at h
                exact ih _ _ _ _ hP1 h
              · simp only [hb, if_false, Option.some.injEq] at h
                rw [← h]; exact hP1
            · simp only [ht, if_false] at h
              by_cases hc : next.type = 67
              · simp only [hc, if_true, header.message_body] at h
                by_cases hl : next.body_size ≤ s2.length
                · simp only [hl, if_true, Option.some.injEq] at h
                  rw [← h]; exact hP1
                · simp only [hl, if_false, Option.some.injEq] at h
                  rw [← h]; exact hP1
              · simp only [hc, if_false, Option.some.injEq] at h
                rw [← h]; exact hP1

theorem read_data_row_columns (b : record_block) (s : Socket) (n : Nat) (r : Run Unit)
    (h : b.read_data_row s n = some r) : r.block.m_columns = b.m_columns := by
  rcases read_data_row_cases b s n r h with ⟨_, hr⟩ | ⟨_, _, hr⟩ | ⟨_, _, _, hr, _⟩
  · rw [hr]
  · rw [hr]
  · exact hr

theorem read_data_row_fields (b : record_block) (s : Socket) (n : Nat) (r : Run Unit)
    (h : b.read_data_row s n = some r) : ∃ more, r.block.m_fields = b.m_fields ++ more := by
  rcases read_data_row_cases b s n r h with ⟨_, hr⟩ | ⟨_, _, hr⟩ | ⟨_, _, _, _, _, hr, _⟩
  · rw [hr]; exact ⟨[], by simp⟩
  · rw [hr]; exact ⟨[], by simp⟩
  · exact hr

theorem read_rows_loop_fields (f : Nat) (b : record_block) (s : Socket) (n : Nat) (r : Run Nat)
    (h : read_rows_loop f b s n = some r) : ∃ more, r.block.m_fields = b.m_fields ++ more := by
  refine read_rows_loop_invariant (fun x => ∃ more, x.m_fields = b.m_fields ++ more) ?_
    f b s n r ⟨[], by simp⟩ h
  intro b2 s2 n2 r2 hP hrd
  obtain ⟨m1, h1⟩ := hP
  obtain ⟨m2, h2⟩ := read_data_row_fields b2 s2 n2 r2 hrd
  exact ⟨m1 ++ m2, by rw [h2, h1, List.append_assoc]⟩

/-! ## Decoding what was encoded -/

theorem length_put_uint32 (n : Nat) : (put_uint32 n).length = 4 := rfl

theorem length_encode_field (f : Field) : 4 ≤ (encode_field f).length := by
  cases f with
  | none => simp [encode_field]
  | some value => simp [encode_field, put_uint32]

theorem length_encode_fields (row : List Field) : row.length ≤ (encode_fields row).length := by
  induction row with
  | nil => simp [encode_fields]
  | cons f fs ih =>
    have := length_encode_field f
    simp only [encode_fields, List.length_cons, List.length_append]
    omega

theorem length_field_views : ∀ (row : List Field) (o : Nat), (field_views o row).length = row.length := by
  intro row
  induction row with
  | nil => intro o; rfl
  | cons f fs ih =>
    intro o
    cases f with
    | none => simp [field_views, ih]
    | some value => simp [field_views, ih]

theorem decode_fields_encoded : ∀ (row : List Field) (o : Nat) (acc : List byte_view) (fuel : Nat),
    (∀ f ∈ row, ∀ value, f = some value → value.length < 2 ^ 31) → row.length ≤ fuel →
    decode_fields fuel ⟨encode_fields row, o⟩ acc = some (acc ++ field_views o row, .ok ()) := by
  intro row
  induction row with
  | nil =>
    intro o acc fuel _ _
    unfold decode_fields
    simp [decoder.remaining, encode_fields, field_views]
  | cons f fs ih =>
    intro o acc fuel hrow hfuel
    have hfs : ∀ g ∈ fs, ∀ value, g = some value → value.length < 2 ^ 31 :=
      fun g hg => hrow g (List.mem_cons_of_mem _ hg)
    cases fuel with
    | zero => simp at hfuel
    | succ fuel =>
      have hfuel2 : fs.length ≤ fuel := by simpa using hfuel
      rw [decode_fields]
      have hne : ¬ (decoder.remaining ⟨encode_fields (f :: fs), o⟩ = 0) := by
        have := length_encode_field f
        simp only [decoder.remaining, encode_fields, List.length_append]
        omega
      simp only [hne, if_false]
      cases f with
      | none =>
        have h32 : decoder.read_int32 ⟨encode_fields (none :: fs), o⟩
            = .ok (-1, ⟨encode_fields fs, o + 4⟩) := by
          simp only [decoder.read_int32, encode_fields, encode_field, List.cons_append,
            List.nil_append]
          have : to_int32 (be_uint32 255 255 255 255) = -1 := by decide
          rw [this]
        rw [h32]
        simp only [if_true]
        rw [ih (o + 4) _ fuel hfs hfuel2]
        simp [field_views]
      | some value =>
        have hv : value.length < 2 ^ 31 := hrow (some value) (List.mem_cons_self _ _) value rfl
        have h32 : decoder.read_int32 ⟨encode_fields (some value :: fs), o⟩
            = .ok ((value.length : Int), ⟨value ++ encode_fields fs, o + 4⟩) := by
          simp only [decoder.read_int32, encode_fields, encode_field, put_uint32,
            List.cons_append, List.nil_append]
          rw [be_uint32_put _ (by omega), to_int32_small _ hv]
        rw [h32]
        have hneg : ¬ ((value.length : Int) = -1) := by omega
        simp only [hneg, if_false]
        rw [to_size_t_nat _ (by omega)]
        have hb : decoder.read_bytes ⟨value ++ encode_fields fs, o + 4⟩ value.length
            = .ok (⟨o + 4, value.length⟩, ⟨encode_fields fs, o + 4 + value.length⟩) := by
          simp [decoder.read_bytes]
        rw [hb]
        simp only
        rw [ih (o + 4 + value.length) _ fuel hfs hfuel2]
        simp [field_views]

theorem field_views_matches : ∀ (row : List Field) (pre post : List Byte),
    List.Forall₂ (field_matches (pre ++ encode_fields row ++ post))
      (field_views pre.length row) row := by
  intro row
  induction row with
  | nil => intro pre post; exact List.Forall₂.nil
  | cons f fs ih =>
    intro pre post
    cases f with
    | none =>
      have h := ih (pre ++ encode_field none) post
      simp only [encode_fields, field_views]
      refine List.Forall₂.cons (by simp [field_matches, byte_view.empty]) ?_
      have hl : (pre ++ encode_field none).length = pre.length + 4 := by simp [encode_field]
      rw [hl] at h
      simpa [List.append_assoc] using h
    | some value =>
      have h := ih (pre ++ put_uint32 value.length ++ value) post
      simp only [encode_fields, field_views, encode_field]
      refine List.Forall₂.cons ⟨rfl, ?_⟩ ?_
      · have := view_bytes_mid (pre ++ put_uint32 value.length) value (encode_fields fs ++ post)
        have hl : (pre ++ put_uint32 value.length).length = pre.length + 4 := by
          simp [put_uint32]
        rw [hl] at this
        simpa [List.append_assoc] using this
      · have hl : (pre ++ put_uint32 value.length ++ value).length
            = pre.length + 4 + value.length := by simp [put_uint32]; omega
        rw [hl] at h
        simpa [List.append_assoc] using h

theorem field_views_bound : ∀ (row : List Field) (o : Nat) (v : byte_view),
    v ∈ field_views o row → v.offset + v.size ≤ o + (encode_fields row).length := by
  intro row
  induction row with
  | nil => intro o v hv; simp [field_views] at hv
  | cons f fs ih =>
    intro o v hv
    cases f with
    | none =>
      simp only [field_views, List.mem_cons] at hv
      simp only [encode_fields, encode_field, List.length_append, List.length_cons,
        List.length_nil]
      rcases hv with hv | hv
      · rw [hv]; simp [byte_view.empty]
      · have := ih _ _ hv
        omega
    | some value =>
      simp only [field_views, List.mem_cons] at hv
      simp only [encode_fields, encode_field, List.length_append, length_put_uint32]
      rcases hv with hv | hv
      · rw [hv]; simp only; omega
      · have := ih _ _ hv
        omega

theorem length_row_body (row : List Field) :
    (row_body row).length = 2 + (encode_fields row).length := by
  simp [row_body, put_uint16]; omega

theorem view_bytes_store_self (mem : List Byte) (a : Nat) (data : List Byte)
    (h : a + data.length ≤ mem.length) :
    view_bytes (store_bytes mem a data) ⟨a, data.length⟩ = data := by
  have hl : (mem.take a).length = a := by simp; omega
  have := view_bytes_mid (mem.take a) data (mem.drop (a + data.length))
  rw [hl] at this
  exact this

theorem forall₂_append {α β : Type} (R : α → β → Prop) :
    ∀ (l1 : List α) (m1 : List β) (l2 : List α) (m2 : List β),
    List.Forall₂ R l1 m1 → List.Forall₂ R l2 m2 → List.Forall₂ R (l1 ++ l2) (m1 ++ m2) := by
  intro l1 m1 l2 m2 h1 h2
  induction h1 with
  | nil => exact h2
  | cons hab _ ih => exact List.Forall₂.cons hab ih

theorem forall₂_matches_store (mem : List Byte) (a : Nat) (data : List Byte) :
    ∀ (vs : List byte_view) (fs : List Field), a ≤ mem.length →
    (∀ v ∈ vs, v.offset + v.size ≤ a) → List.Forall₂ (field_matches mem) vs fs →
    List.Forall₂ (field_matches (store_bytes mem a data)) vs fs := by
  intro vs fs ha hb h
  induction h with
  | nil => exact List.Forall₂.nil
  | @cons v f vs fs hvf _ ih =>
    refine List.Forall₂.cons ?_ (ih (fun w hw => hb w (List.mem_cons_of_mem _ hw)))
    have hv := hb v (List.mem_cons_self _ _)
    cases f with
    | none => exact hvf
    | some value =>
      refine ⟨hvf.1, ?_⟩
      rw [view_bytes_store mem a data v hv ha]
      exact hvf.2

theorem read_data_row_encoded (b : record_block) (row : List Field) (rest : List Byte)
    (hrow : ∀ f ∈ row, ∀ value, f = some value → value.length < 2 ^ 31)
    (hcap : (row_body row).length ≤ b.remaining)
    (hcount : (b.m_fields.length + row.length) % b.m_columns = 0) :
    b.read_data_row (row_body row ++ rest) (row_body row).length
      = some ⟨⟨b.m_columns, b.m_fields ++ field_views (b.m_buffer.m_allocated + 2) row,
          ⟨store_bytes b.m_buffer.memory b.m_buffer.m_allocated (row_body row),
            b.m_buffer.m_allocated + (row_body row).length⟩⟩, rest, .ok ()⟩ := by
  have hlen := length_row_body row
  have hcap2 := hcap
  simp only [record_block.remaining, unaligned_slab.remaining] at hcap2
  have hfit : b.m_buffer.m_allocated + (row_body row).length ≤ b.m_buffer.memory.length := by
    omega
  unfold record_block.read_data_row
  have hs : (row_body row).length ≤ (row_body row ++ rest).length := by simp
  simp only [hcap, not_true_eq_false, if_false, unaligned_slab.allocate, transfer, hs, if_true,
    List.take_left', List.drop_left']
  have hover : decoder.over
      (store_bytes b.m_buffer.memory b.m_buffer.m_allocated (row_body row))
      ⟨b.m_buffer.m_allocated, (row_body row).length⟩ = ⟨row_body row, b.m_buffer.m_allocated⟩ := by
    simp only [decoder.over, view_bytes_store_self _ _ _ hfit]
  rw [hover]
  have h16 : decoder.read_int16 ⟨row_body row, b.m_buffer.m_allocated⟩
      = .ok (to_int16 (be_uint16 (byte_of (row.length / 2 ^ 8)) (byte_of row.length)),
          ⟨encode_fields row, b.m_buffer.m_allocated + 2⟩) := by
    simp [decoder.read_int16, row_body, put_uint16]
  rw [h16]
  simp only
  rw [decode_fields_encoded row _ _ _ hrow (by
    simp only [decoder.remaining]; exact length_encode_fields row)]
  simp only [List.length_append, length_field_views, hcount, if_true]

theorem holds_read_data_row (b : record_block) (fs row : List Field)
    (h : b.holds fs) (hcap : (row_body row).length ≤ b.remaining) :
    record_block.holds ⟨b.m_columns, b.m_fields ++ field_views (b.m_buffer.m_allocated + 2) row,
      ⟨store_bytes b.m_buffer.memory b.m_buffer.m_allocated (row_body row),
        b.m_buffer.m_allocated + (row_body row).length⟩⟩ (fs ++ row) := by
  obtain ⟨hm, hb, ha⟩ := h
  have hlen := length_row_body row
  simp only [record_block.remaining, unaligned_slab.remaining] at hcap
  have hfit : b.m_buffer.m_allocated + (row_body row).length ≤ b.m_buffer.memory.length := by
    omega
  refine ⟨?_, ?_, ?_⟩
  · refine forall₂_append _ _ _ _ _ (forall₂_matches_store _ _ _ _ _ ha hb hm) ?_
    have hpre : (b.m_buffer.memory.take b.m_buffer.m_allocated ++ put_uint16 row.length).length
        = b.m_buffer.m_allocated + 2 := by simp [put_uint16]; omega
    have := field_views_matches row
      (b.m_buffer.memory.take b.m_buffer.m_allocated ++ put_uint16 row.length)
      (b.m_buffer.memory.drop (b.m_buffer.m_allocated + (row_body row).length))
    rw [hpre] at this
    simpa [store_bytes, row_body, List.append_assoc] using this
  · intro v hv
    simp only [List.mem_append] at hv
    show v.offset + v.size ≤ b.m_buffer.m_allocated + (row_body row).length
    rcases hv with hv | hv
    · have := hb v hv; omega
    · have := field_views_bound row _ v hv; omega
  · show b.m_buffer.m_allocated + (row_body row).length
      ≤ (store_bytes b.m_buffer.memory b.m_buffer.m_allocated (row_body row)).length
    rw [length_store_bytes _ _ _ hfit]
    exact hfit

theorem forall₂_matches_values (mem : List Byte) (vs : List byte_view) (fs : List Field)
    (h : List.Forall₂ (field_matches mem) vs fs) :
    vs.map (view_bytes mem) = fs.map field_value := by
  induction h with
  | nil => rfl
  | @cons v f vs fs hvf _ ih =>
    simp only [List.map_cons, ih]
    congr 1
    cases f with
    | none =>
      simp only [field_matches] at hvf
      simp [view_bytes, hvf, field_value]
    | some value => exact hvf.2

theorem holds_field_values (b : record_block) (fs : List Field) (h : b.holds fs) :
    b.field_values = fs.map field_value :=
  forall₂_matches_values _ _ _ h.1

theorem holds_length (b : record_block) (fs : List Field) (h : b.holds fs) :
    b.m_fields.length = fs.length := h.1.length_eq

/-! ## The fill loop on a stream of rows -/

theorem drop_message (tag : Byte) (body rest : List Byte) :
    (message tag body ++ rest).drop 5 = body ++ rest := by
  simp [message, put_uint32]

theorem message_header_message (tag : Byte) (body rest : List Byte)
    (h : body.length + 4 < 2 ^ 32) :
    message_header (message tag body ++ rest)
      = ((message tag body ++ rest).drop 5, .ok ⟨tag, body.length⟩) := by
  rw [drop_message]
  simp only [message, put_uint32, List.cons_append, List.nil_append, message_header]
  rw [be_uint32_put _ h]
  simp

theorem add_mod_zero (a c d : Nat) (ha : a % d = 0) (hc : c % d = 0) : (a + c) % d = 0 := by
  rw [Nat.add_mod, ha, hc]; simp

theorem read_rows_loop_rows : ∀ (rows : List (List Field)) (first : List Field)
    (b : record_block) (fs : List Field) (fuel : Nat) (done after : List Byte),
    b.holds fs → fs.length % b.m_columns = 0 →
    (∀ row ∈ first :: rows, sendable row ∧ row.length % b.m_columns = 0) →
    done.length + 4 < 2 ^ 32 →
    (row_body first).length ≤ b.remaining →
    rows.length < fuel →
    ∃ r, read_rows_loop fuel b (row_stream first rows done after) (row_body first).length = some r ∧
      r.block.m_columns = b.m_columns ∧
      ((r.result = .ok 0 ∧ r.socket = after ∧
          r.block.holds (fs ++ all_fields (first :: rows)) ∧
          r.block.remaining + body_sizes (first :: rows) = b.remaining) ∨
       (∃ pre next post, rows = pre ++ next :: post ∧
          r.result = .ok (row_body next).length ∧
          r.socket = row_stream next post done after ∧
          r.block.holds (fs ++ all_fields (first :: pre)) ∧
          r.block.remaining + body_sizes (first :: pre) = b.remaining ∧
          r.block.remaining < (row_body next).length)) := by
  intro rows
  induction rows with
  | nil =>
    intro first b fs fuel done after hholds hfs hrows hdone hcap hfuel
    obtain ⟨f, rfl⟩ : ∃ f, fuel = f + 1 := ⟨fuel - 1, by omega⟩
    obtain ⟨hsend, hmod⟩ := hrows first (List.mem_cons_self _ _)
    have hlen := length_row_body first
    have hcount : (b.m_fields.length + first.length) % b.m_columns = 0 := by
      rw [holds_length b fs hholds]; exact add_mod_zero _ _ _ hfs hmod
    have hrd := read_data_row_encoded b first (message 67 done ++ after) hsend.1 hcap hcount
    have hh := message_header_message 67 done after hdone
    have hstep := read_rows_loop_step f b _ _ _ _ _ hrd hh
    have h68 : ¬ ((67 : Byte) = 68) := by decide
    simp only [h68, if_false, if_true, drop_message, List.length_append, Nat.le_add_right,
      List.drop_left'] at hstep
    refine ⟨_, hstep, rfl, Or.inl ⟨rfl, rfl, ?_, ?_⟩⟩
    · have := holds_read_data_row b fs first hholds hcap
      simpa [all_fields] using this
    · simp only [record_block.remaining, unaligned_slab.remaining, body_sizes] at hcap ⊢
      rw [length_store_bytes _ _ _ (by omega)]
      omega
  | cons next rest ih =>
    intro first b fs fuel done after hholds hfs hrows hdone hcap hfuel
    obtain ⟨f, rfl⟩ : ∃ f, fuel = f + 1 := ⟨fuel - 1, by omega⟩
    obtain ⟨hsend, hmod⟩ := hrows first (List.mem_cons_self _ _)
    have hlen := length_row_body first
    obtain ⟨hsendn, hmodn⟩ := hrows next (List.mem_cons_of_mem _ (List.mem_cons_self _ _))
    have hcount : (b.m_fields.length + first.length) % b.m_columns = 0 := by
      rw [holds_length b fs hholds]; exact add_mod_zero _ _ _ hfs hmod
    have hrd := read_data_row_encoded b first
      (message 68 (row_body next) ++ (rows_tail rest done ++ after)) hsend.1 hcap hcount
    have hh := message_header_message 68 (row_body next) (rows_tail rest done ++ after) hsendn.2
    have hstream : row_stream first (next :: rest) done after
        = row_body first ++ (message 68 (row_body next) ++ (rows_tail rest done ++ after)) := by
      simp [row_stream, rows_tail, List.append_assoc]
    have hstep := read_rows_loop_step f b _ _ _ _ _ hrd hh
    rw [← hstream] at hstep
    simp only [if_true, drop_message] at hstep
    have hholds1 := holds_read_data_row b fs first hholds hcap
    have hrem1 : record_block.remaining ⟨b.m_columns,
        b.m_fields ++ field_views (b.m_buffer.m_allocated + 2) first,
        ⟨store_bytes b.m_buffer.memory b.m_buffer.m_allocated (row_body first),
          b.m_buffer.m_allocated + (row_body first).length⟩⟩ + (row_body first).length
          = b.remaining := by
      simp only [record_block.remaining, unaligned_slab.remaining] at hcap ⊢
      rw [length_store_bytes _ _ _ (by omega)]
      omega
    by_cases hfit : (row_body next).length ≤ record_block.remaining ⟨b.m_columns,
        b.m_fields ++ field_views (b.m_buffer.m_allocated + 2) first,
        ⟨store_bytes b.m_buffer.memory b.m_buffer.m_allocated (row_body first),
          b.m_buffer.m_allocated + (row_body first).length⟩⟩
    · simp only [hfit, if_true] at hstep
      have hfs1 : (fs ++ first).length % b.m_columns = 0 := by
        rw [List.length_append]; exact add_mod_zero _ _ _ hfs hmod
      obtain ⟨r, hr, hcols, hcase⟩ := ih next _ (fs ++ first) f done after hholds1 hfs1
        (fun row hrow => hrows row (List.mem_cons_of_mem _ hrow)) hdone hfit
        (by simpa using hfuel)
      refine ⟨r, ?_, hcols, ?_⟩
      · rw [hstep]; exact hr
      · rcases hcase with ⟨hres, hsock, hh2, hrem⟩ | ⟨pre, nxt, post, hsplit, hres, hsock, hh2, hrem, hlt⟩
        · left
          refine ⟨hres, hsock, ?_, ?_⟩
          · simpa [all_fields, List.append_assoc] using hh2
          · simp only [body_sizes] at hrem ⊢
            omega
        · right
          refine ⟨next :: pre, nxt, post, by rw [hsplit]; rfl, hres, hsock, ?_, ?_, hlt⟩
          · simpa [all_fields, List.append_assoc] using hh2
          · simp only [body_sizes] at hrem ⊢
            omega
    · simp only [hfit, if_false] at hstep
      refine ⟨_, hstep, rfl, Or.inr ⟨[], next, rest, rfl, rfl, ?_, ?_, ?_, Nat.lt_of_not_le hfit⟩⟩
      · simp [row_stream]
      · simpa [all_fields] using hholds1
      · simp only [body_sizes]
        omega

theorem read_rows_of_loop (f : Nat) (b : record_block) (s : Socket) (n : Nat) (r : Run Nat)
    (h : read_rows_loop f b s n = some r) : b.read_rows s n = some r := by
  obtain ⟨r2, h2⟩ := read_rows_total b s n
  rw [h2, read_rows_loop_unique _ _ b s n _ _ h2 h]

theorem holds_create (column_count record_size capacity : Nat) :
    (record_block.create column_count record_size capacity).holds [] := by
  refine ⟨List.Forall₂.nil, ?_, ?_⟩
  · intro v hv; simp [record_block.create] at hv
  · simp [record_block.create, unaligned_slab.create]

theorem remaining_create (column_count record_size capacity : Nat) :
    (record_block.create column_count record_size capacity).remaining = capacity := by
  simp [record_block.create, unaligned_slab.create, record_block.remaining,
    unaligned_slab.remaining]

theorem all_fields_append (xs ys : List (List Field)) :
    all_fields (xs ++ ys) = all_fields xs ++ all_fields ys := by
  induction xs with
  | nil => rfl
  | cons x xs ih => simp [all_fields, ih]

theorem body_sizes_append (xs ys : List (List Field)) :
    body_sizes (xs ++ ys) = body_sizes xs + body_sizes ys := by
  induction xs with
  | nil => simp [body_sizes]
  | cons x xs ih =>
    show (row_body x).length + body_sizes (xs ++ ys) = _
    rw [ih]
    simp only [body_sizes]
    omega

theorem rows_mod (column_count : Nat) (rows : List (List Field))
    (h : ∀ row ∈ rows, row.length = column_count ∧ sendable row) :
    ∀ row ∈ rows, sendable row ∧ row.length % column_count = 0 := by
  intro row hrow
  obtain ⟨hl, hs⟩ := h row hrow
  exact ⟨hs, by rw [hl]; exact Nat.mod_self _⟩

theorem read_rows_create_rows (column_count record_size capacity : Nat) (first : List Field)
    (rows : List (List Field)) (done after : List Byte)
    (hrows : ∀ row ∈ first :: rows, row.length = column_count ∧ sendable row)
    (hdone : done.length + 4 < 2 ^ 32) (hcap : (row_body first).length ≤ capacity) :
    ∃ r, (record_block.create column_count record_size capacity).read_rows
        (row_stream first rows done after) (row_body first).length = some r ∧
      ((r.result = .ok 0 ∧ r.socket = after ∧ r.block.holds (all_fields (first :: rows)) ∧
          r.block.remaining + body_sizes (first :: rows) = capacity) ∨
       (∃ pre next post, rows = pre ++ next :: post ∧
          r.result = .ok (row_body next).length ∧
          r.socket = row_stream next post done after ∧
          r.block.holds (all_fields (first :: pre)) ∧
          r.block.remaining + body_sizes (first :: pre) = capacity ∧
          r.block.remaining < (row_body next).length)) := by
  have hrem := remaining_create column_count record_size capacity
  obtain ⟨r, hr, -, hcase⟩ := read_rows_loop_rows rows first
    (record_block.create column_count record_size capacity) [] (rows.length + 1) done after
    (holds_create _ _ _) (by simp) (rows_mod column_count _ hrows) hdone
    (by rw [hrem]; exact hcap) (Nat.lt_succ_self _)
  rw [hrem] at hcase
  exact ⟨r, read_rows_of_loop _ _ _ _ _ hr, by simpa using hcase⟩

/-! ## Further lemmas for the claims -/

theorem read_data_row_arena (c : Nat) (b : record_block) (s : Socket) (n : Nat) (r : Run Unit)
    (hP : b.m_buffer.memory.length = c ∧ b.m_buffer.m_allocated ≤ c)
    (h : b.read_data_row s n = some r) :
    r.block.m_buffer.memory.length = c ∧ r.block.m_buffer.m_allocated ≤ c := by
  obtain ⟨hlen, hal⟩ := hP
  rcases read_data_row_cases b s n r h with ⟨_, hr⟩ | ⟨hcap, _, hr⟩ | ⟨hcap, hs, _, _, hr, _⟩
  · rw [hr]; exact ⟨hlen, hal⟩
  · rw [hr]
    simp only [record_block.remaining, unaligned_slab.remaining] at hcap
    refine ⟨hlen, ?_⟩
    show b.m_buffer.m_allocated + n ≤ c
    omega
  · rw [hr]
    simp only [record_block.remaining, unaligned_slab.remaining] at hcap
    have ht : (s.take n).length = n := by simp; omega
    refine ⟨?_, ?_⟩
    · show (store_bytes b.m_buffer.memory b.m_buffer.m_allocated (s.take n)).length = c
      rw [length_store_bytes _ _ _ (by rw [ht]; omega)]
      exact hlen
    · show b.m_buffer.m_allocated + n ≤ c
      omega

theorem reachable_arena (column_count record_size c : Nat) (b : record_block)
    (h : reachable column_count record_size c b) :
    b.m_buffer.memory.length = c ∧ b.m_buffer.m_allocated ≤ c := by
  induction h with
  | create => simp [record_block.create, unaligned_slab.create]
  | read_data_row b s n r _ hrd ih => exact read_data_row_arena c b s n r ih hrd
  | read_rows b s n r _ hrd ih =>
    exact read_rows_loop_invariant
      (fun x => x.m_buffer.memory.length = c ∧ x.m_buffer.m_allocated ≤ c)
      (fun b2 s2 n2 r2 hP h2 => read_data_row_arena c b2 s2 n2 r2 hP h2) _ b s n r ih hrd

theorem read_rows_loop_columns (f : Nat) (b : record_block) (s : Socket) (n : Nat) (r : Run Nat)
    (h : read_rows_loop f b s n = some r) : r.block.m_columns = b.m_columns := by
  refine read_rows_loop_invariant (fun x => x.m_columns = b.m_columns) ?_ f b s n r rfl h
  intro b2 s2 n2 r2 hP hrd
  rw [read_data_row_columns b2 s2 n2 r2 hrd]; exact hP

theorem read_data_row_ok_count (b : record_block) (s : Socket) (n : Nat) (r : Run Unit)
    (h : b.read_data_row s n = some r) (hok : r.result = .ok ()) :
    r.block.m_fields.length % r.block.m_columns = 0 := by
  rcases read_data_row_cases b s n r h with ⟨_, hr⟩ | ⟨_, _, hr⟩ | ⟨_, _, _, hc, _, _, hm⟩
  · rw [hr] at hok; cases hok
  · rw [hr] at hok; cases hok
  · rw [hc]; exact hm hok

theorem read_rows_ok_count (b : record_block) (s : Socket) (n : Nat) (r : Run Nat) (v : Nat)
    (h : b.read_rows s n = some r) (hok : r.result = .ok v) :
    r.block.m_fields.length % r.block.m_columns = 0 := by
  rcases read_rows_loop_end _ b s n r h with ⟨e, he, -⟩ | ⟨k, b1, s1, next, hk, hb, -⟩
  · rw [he] at hok; cases hok
  · obtain ⟨bk, sk, nk, -, hrd, -⟩ := header_at_last k b s n b1 s1 next hk
    rw [hb]
    exact read_data_row_ok_count bk sk nk _ hrd rfl

theorem read_data_row_misaligned (b : record_block) (s : Socket) (n : Nat) (r1 : Run Unit)
    (h : ({ b with m_columns := 1 } : record_block).read_data_row s n = some r1)
    (hok : r1.result = .ok ()) (hm : r1.block.fields.length % b.m_columns ≠ 0) :
    b.read_data_row s n
      = some ⟨{ r1.block with m_columns := b.m_columns }, r1.socket,
          .error .field_count_misaligned⟩ := by
  unfold record_block.read_data_row at h ⊢
  have hrem : ({ b with m_columns := 1 } : record_block).remaining = b.remaining := rfl
  rw [hrem] at h
  by_cases hcap : n ≤ b.remaining
  · simp only [hcap, not_true_eq_false, if_false, unaligned_slab.allocate, transfer] at h ⊢
    by_cases hs : n ≤ s.length
    · simp only [hs, if_true] at h ⊢
      split at h
      · cases h; cases hok
      · rename_i x i d2 h16
        split at h
        · cases h
        · cases h; cases hok
        · rename_i fields hd
          simp only [Nat.mod_one, if_true, Option.some.injEq] at h
          subst h
          simp only [record_block.fields] at hm
          simp only [hm, if_false]
    · simp only [hs, if_false, Option.some.injEq] at h
      subst h; cases hok
  · simp only [hcap, not_false_eq_true, if_true, Option.some.injEq] at h
    subst h; cases hok

theorem read_blocks_rows (column_count : Nat) (capacity : Nat → Nat → Nat)
    (done after : List Byte) (hpolicy : ∀ k n, n ≤ capacity k n)
    (hdone : done.length + 4 < 2 ^ 32) :
    ∀ (m : Nat) (rows : List (List Field)) (first : List Field) (k fuel : Nat),
    rows.length ≤ m → rows.length < fuel →
    (∀ row ∈ first :: rows, row.length = column_count ∧ sendable row) →
    ∃ blocks, read_blocks column_count capacity fuel k (row_stream first rows done after)
        (row_body first).length = some (blocks, after) ∧
      blocks_values blocks = (all_fields (first :: rows)).map field_value := by
  intro m
  induction m with
  | zero =>
    intro rows first k fuel hm hfuel hrows
    obtain ⟨f, rfl⟩ : ∃ f, fuel = f + 1 := ⟨fuel - 1, by omega⟩
    obtain ⟨r, hr, hcase⟩ := read_rows_create_rows column_count 512
      (capacity k (row_body first).length) first rows done after hrows hdone (hpolicy _ _)
    obtain ⟨blk, sock, res⟩ := r
    rcases hcase with ⟨hres, hsock, hh, -⟩ | ⟨pre, next, post, hsplit, -⟩
    · simp only at hres hsock hh
      subst hres hsock
      refine ⟨[blk], ?_, ?_⟩
      · simp only [read_blocks, hr]
      · simp only [blocks_values, List.append_nil]
        exact holds_field_values _ _ hh
    · rw [hsplit] at hm
      simp at hm
  | succ m ih =>
    intro rows first k fuel hm hfuel hrows
    obtain ⟨f, rfl⟩ : ∃ f, fuel = f + 1 := ⟨fuel - 1, by omega⟩
    obtain ⟨r, hr, hcase⟩ := read_rows_create_rows column_count 512
      (capacity k (row_body first).length) first rows done after hrows hdone (hpolicy _ _)
    obtain ⟨blk, sock, res⟩ := r
    rcases hcase with ⟨hres, hsock, hh, -⟩ | ⟨pre, next, post, hsplit, hres, hsock, hh, -⟩
    · simp only at hres hsock hh
      subst hres hsock
      refine ⟨[blk], ?_, ?_⟩
      · simp only [read_blocks, hr]
      · simp only [blocks_values, List.append_nil]
        exact holds_field_values _ _ hh
    · simp only at hres hsock hh
      have hlen := length_row_body next
      obtain ⟨more, hmore⟩ : ∃ more, (row_body next).length = more + 1 :=
        ⟨(row_body next).length - 1, by omega⟩
      have hpost : post.length ≤ m := by
        rw [hsplit] at hm
        simp only [List.length_append, List.length_cons] at hm
        omega
      have hpostf : post.length < f := by
        rw [hsplit] at hfuel
        simp only [List.length_append, List.length_cons] at hfuel
        omega
      have hrows2 : ∀ row ∈ next :: post, row.length = column_count ∧ sendable row := by
        intro row hrow
        apply hrows row
        rw [hsplit]
        simp only [List.mem_cons, List.mem_append] at hrow ⊢
        rcases hrow with h | h
        · right; right; left; exact h
        · right; right; right; exact h
      obtain ⟨blocks, hb, hv⟩ := ih post next (k + 1) f hpost hpostf hrows2
      subst hres hsock
      refine ⟨blk :: blocks, ?_, ?_⟩
      · rw [hmore] at hr hb
        simp only [read_blocks, hr, hb]
      · simp only [blocks_values, hv, holds_field_values _ _ hh, hsplit]
        rw [← List.map_append]
        congr 1
        simp only [all_fields, all_fields_append, List.append_assoc]

/-! ## The layout of one decoded row -/

theorem decoder_over_store (mem : List Byte) (a n : Nat) (data : List Byte)
    (hn : n ≤ mem.length - a) (hd : data.length = n) :
    decoder.over (store_bytes mem a data) ⟨a, n⟩ = ⟨data, a⟩ := by
  simp only [decoder.over]
  by_cases h0 : n = 0
  · subst h0
    have : data = [] := List.length_eq_zero.mp hd
    simp [view_bytes, this]
  · subst hd
    rw [view_bytes_store_self _ _ _ (by omega)]

theorem read_data_row_unfold (b : record_block) (s : Socket) (n : Nat)
    (hcap : n ≤ b.remaining) (hs : n ≤ s.length) :
    b.read_data_row s n =
      match decoder.read_int16 ⟨s.take n, b.m_buffer.m_allocated⟩ with
      | .error e =>
        some ⟨⟨b.m_columns, b.m_fields,
          ⟨store_bytes b.m_buffer.memory b.m_buffer.m_allocated (s.take n),
            b.m_buffer.m_allocated + n⟩⟩, s.drop n, .error e⟩
      | .ok (_, message) =>
        match decode_fields message.remaining message b.m_fields with
        | none => none
        | some (fields, .error e) =>
          some ⟨⟨b.m_columns, fields,
            ⟨store_bytes b.m_buffer.memory b.m_buffer.m_allocated (s.take n),
              b.m_buffer.m_allocated + n⟩⟩, s.drop n, .error e⟩
        | some (fields, .ok ()) =>
          if fields.length % b.m_columns = 0 then
            some ⟨⟨b.m_columns, fields,
              ⟨store_bytes b.m_buffer.memory b.m_buffer.m_allocated (s.take n),
                b.m_buffer.m_allocated + n⟩⟩, s.drop n, .ok ()⟩
          else
            some ⟨⟨b.m_columns, fields,
              ⟨store_bytes b.m_buffer.memory b.m_buffer.m_allocated (s.take n),
                b.m_buffer.m_allocated + n⟩⟩, s.drop n, .error .field_count_misaligned⟩ := by
  have hcap2 := hcap
  simp only [record_block.remaining, unaligned_slab.remaining] at hcap2
  have hover := decoder_over_store b.m_buffer.memory b.m_buffer.m_allocated n (s.take n) hcap2
    (by simp; omega)
  unfold record_block.read_data_row
  simp only [hcap, not_true_eq_false, if_false, unaligned_slab.allocate, transfer, hs, if_true,
    hover]

theorem read_data_row_ok (b : record_block) (s : Socket) (n : Nat) (r : Run Unit)
    (h : b.read_data_row s n = some r) (hok : r.result = .ok ()) :
    n ≤ b.remaining ∧ n ≤ s.length ∧ ∃ c0 c1 body, s.take n = c0 :: c1 :: body ∧
      decode_fields body.length ⟨body, b.m_buffer.m_allocated + 2⟩ b.m_fields
        = some (r.block.m_fields, .ok ()) ∧
      r.block.m_buffer = ⟨store_bytes b.m_buffer.memory b.m_buffer.m_allocated (s.take n),
        b.m_buffer.m_allocated + n⟩ ∧
      r.socket = s.drop n ∧ r.block.m_columns = b.m_columns := by
  rcases read_data_row_cases b s n r h with ⟨_, hr⟩ | ⟨_, _, hr⟩ | ⟨hcap, hs, hsock, hcols, hbuf, -, -⟩
  · rw [hr] at hok; cases hok
  · rw [hr] at hok; cases hok
  · refine ⟨hcap, hs, ?_⟩
    rw [read_data_row_unfold b s n hcap hs] at h
    match htake : s.take n with
    | [] =>
      rw [htake] at h
      simp only [decoder.read_int16, Option.some.injEq] at h
      rw [← h] at hok; cases hok
    | [x] =>
      rw [htake] at h
      simp only [decoder.read_int16, Option.some.injEq] at h
      rw [← h] at hok; cases hok
    | c0 :: c1 :: body =>
      refine ⟨c0, c1, body, rfl, ?_, by rw [hbuf, htake], hsock, hcols⟩
      rw [htake] at h
      simp only [decoder.read_int16, decoder.remaining] at h
      split at h
      · cases h
      · cases h; cases hok
      · rename_i fields hd
        split at h
        · cases h; exact hd
        · cases h; cases hok

theorem read_data_row_ok_size (b : record_block) (s : Socket) (n : Nat) (r : Run Unit)
    (h : b.read_data_row s n = some r) (hok : r.result = .ok ()) :
    2 ≤ n ∧ r.block.used_bytes = b.used_bytes + n ∧ r.block.remaining + n = b.remaining ∧
      r.block.m_buffer.capacity = b.m_buffer.capacity := by
  obtain ⟨hcap, hs, c0, c1, body, htake, -, hbuf, -, -⟩ := read_data_row_ok b s n r h hok
  have hlen : (s.take n).length = n := by simp; omega
  have h2 : 2 ≤ n := by
    have hl := hlen
    rw [htake] at hl
    simp only [List.length_cons] at hl
    omega
  simp only [record_block.remaining, unaligned_slab.remaining] at hcap
  have hst := length_store_bytes b.m_buffer.memory b.m_buffer.m_allocated (s.take n)
    (by rw [hlen]; omega)
  simp only [record_block.used_bytes, record_block.remaining, unaligned_slab.allocated,
    unaligned_slab.remaining, unaligned_slab.capacity, hbuf, hst]
  refine ⟨h2, trivial, ?_, trivial⟩
  omega

theorem read_int32_ok (d d2 : decoder) (i : Int) (h : d.read_int32 = .ok (i, d2)) :
    d2.offset = d.offset + 4 ∧ d2.data.length + 4 = d.data.length ∧ d2.data = d.data.drop 4 := by
  unfold decoder.read_int32 at h
  split at h
  · rename_i b0 b1 b2 b3 rest hd
    simp only [Except.ok.injEq, Prod.mk.injEq] at h
    rw [← h.2, hd]
    simp
  · cases h

theorem read_bytes_ok (d d2 : decoder) (n : Nat) (v : byte_view)
    (h : d.read_bytes n = .ok (v, d2)) :
    v = ⟨d.offset, n⟩ ∧ d2.offset = d.offset + n ∧ d2.data.length + n = d.data.length ∧
      d2.data = d.data.drop n := by
  unfold decoder.read_bytes at h
  split at h
  · rename_i hn
    simp only [Except.ok.injEq, Prod.mk.injEq] at h
    rw [← h.1, ← h.2]
    simp
    omega
  · cases h

theorem decode_fields_layout : ∀ (fuel : Nat) (d : decoder) (acc fields : List byte_view)
    (res : Except Error Unit), decode_fields fuel d acc = some (fields, res) →
    ∃ more, fields = acc ++ more ∧
      (∀ v ∈ more, v.offset + v.size ≤ d.offset + d.data.length) ∧
      (res = .ok () → tiles d.offset more (d.offset + d.data.length)) := by
  intro fuel
  induction fuel with
  | zero =>
    intro d acc fields res h
    unfold decode_fields at h
    by_cases h0 : d.remaining = 0
    · simp only [h0, if_true, Option.some.injEq, Prod.mk.injEq] at h
      simp only [decoder.remaining] at h0
      exact ⟨[], by simp [h.1], by simp, fun _ => by simp [tiles, h0]⟩
    · simp [h0] at h
  | succ fuel ih =>
    intro d acc fields res h
    unfold decode_fields at h
    by_cases h0 : d.remaining = 0
    · simp only [h0, if_true, Option.some.injEq, Prod.mk.injEq] at h
      simp only [decoder.remaining] at h0
      exact ⟨[], by simp [h.1], by simp, fun _ => by simp [tiles, h0]⟩
    · simp only [h0, if_false] at h
      cases h32 : d.read_int32 with
      | error e =>
        simp only [h32, Option.some.injEq, Prod.mk.injEq] at h
        refine ⟨[], by simp [h.1], by simp, fun hok => ?_⟩
        rw [← h.2] at hok; cases hok
      | ok p =>
        obtain ⟨i, d2⟩ := p
        obtain ⟨ho2, hl2, -⟩ := read_int32_ok d d2 i h32
        simp only [h32] at h
        by_cases hi : i = -1
        · simp only [hi, if_true] at h
          obtain ⟨more, hm, hb, ht⟩ := ih d2 _ _ _ h
          refine ⟨byte_view.empty :: more, by simp [hm], ?_, fun hok => ?_⟩
          · intro v hv
            simp only [List.mem_cons] at hv
            rcases hv with hv | hv
            · rw [hv]; simp [byte_view.empty]
            · have := hb v hv; omega
          · left
            refine ⟨rfl, ?_⟩
            have := ht hok
            rw [ho2] at this
            rw [show d.offset + d.data.length = d.offset + 4 + d2.data.length by omega]
            exact this
        · simp only [hi, if_false] at h
          cases hrb : d2.read_bytes (to_size_t i) with
          | error e =>
            simp only [hrb, Option.some.injEq, Prod.mk.injEq] at h
            refine ⟨[], by simp [h.1], by simp, fun hok => ?_⟩
            rw [← h.2] at hok; cases hok
          | ok q =>
            obtain ⟨v, d3⟩ := q
            obtain ⟨hv, ho3, hl3, -⟩ := read_bytes_ok d2 d3 _ v hrb
            simp only [hrb] at h
            obtain ⟨more, hm, hb, ht⟩ := ih d3 _ _ _ h
            refine ⟨v :: more, by simp [hm], ?_, fun hok => ?_⟩
            · intro w hw
              simp only [List.mem_cons] at hw
              rcases hw with hw | hw
              · rw [hw, hv]; simp only; omega
              · have := hb w hw; omega
            · right
              have := ht hok
              rw [hv]
              simp only
              refine ⟨by omega, ?_⟩
              rw [show d.offset + 4 + to_size_t i = d3.offset by omega,
                show d.offset + d.data.length = d3.offset + d3.data.length by omega]
              exact this

theorem tiles_sum : ∀ (vs : List byte_view) (o e : Nat), tiles o vs e →
    o + 4 * vs.length + (vs.map byte_view.size).sum = e := by
  intro vs
  induction vs with
  | nil => intro o e h; simpa [tiles] using h
  | cons v vs ih =>
    intro o e h
    simp only [tiles] at h
    simp only [List.length_cons, List.map_cons, List.sum_cons]
    rcases h with ⟨hv, h⟩ | ⟨hv, h⟩
    · have := ih _ _ h
      rw [hv]
      simp only [byte_view.empty]
      omega
    · have := ih _ _ h
      omega

theorem tiles_region : ∀ (vs : List byte_view) (o e : Nat), tiles o vs e →
    o ≤ e ∧ ∀ v ∈ vs, v ≠ byte_view.empty → o + 4 ≤ v.offset ∧ v.offset + v.size ≤ e := by
  intro vs
  induction vs with
  | nil => intro o e h; simp only [tiles] at h; simp [h]
  | cons v vs ih =>
    intro o e h
    simp only [tiles] at h
    rcases h with ⟨hv, h⟩ | ⟨hv, h⟩
    · obtain ⟨hle, hall⟩ := ih _ _ h
      refine ⟨by omega, ?_⟩
      intro w hw hne
      simp only [List.mem_cons] at hw
      rcases hw with hw | hw
      · rw [hw] at hne; exact absurd hv hne
      · have := hall w hw hne; omega
    · obtain ⟨hle, hall⟩ := ih _ _ h
      refine ⟨by omega, ?_⟩
      intro w hw hne
      simp only [List.mem_cons] at hw
      rcases hw with hw | hw
      · rw [hw]; omega
      · have := hall w hw hne; omega

theorem tiles_ordered : ∀ (vs : List byte_view) (o e : Nat), tiles o vs e →
    List.Pairwise (fun v w => v ≠ byte_view.empty → w ≠ byte_view.empty →
      v.offset + v.size + 4 ≤ w.offset) vs := by
  intro vs
  induction vs with
  | nil => intro o e _; exact List.Pairwise.nil
  | cons v vs ih =>
    intro o e h
    simp only [tiles] at h
    rcases h with ⟨hv, h⟩ | ⟨hv, h⟩
    · refine List.Pairwise.cons ?_ (ih _ _ h)
      intro w _ hne; exact absurd hv hne
    · refine List.Pairwise.cons ?_ (ih _ _ h)
      intro w hw _ hne
      have := (tiles_region vs _ _ h).2 w hw hne
      omega

theorem tag_offsets_ge : ∀ (vs : List byte_view) (o : Nat), ∀ t ∈ tag_offsets o vs, o ≤ t := by
  intro vs
  induction vs with
  | nil => intro o t ht; simp [tag_offsets] at ht
  | cons v vs ih =>
    intro o t ht
    simp only [tag_offsets, List.mem_cons] at ht
    rcases ht with ht | ht
    · omega
    · have := ih _ t ht; omega

theorem tiles_tags : ∀ (vs : List byte_view) (o e : Nat), tiles o vs e →
    ∀ t ∈ tag_offsets o vs, t + 4 ≤ e ∧
      ∀ v ∈ vs, v ≠ byte_view.empty → t + 4 ≤ v.offset ∨ v.offset + v.size ≤ t := by
  intro vs
  induction vs with
  | nil => intro o e _ t ht; simp [tag_offsets] at ht
  | cons v vs ih =>
    intro o e h t ht
    have hreg := tiles_region (v :: vs) o e h
    simp only [tiles] at h
    simp only [tag_offsets, List.mem_cons] at ht
    rcases h with ⟨hv, h⟩ | ⟨hv, h⟩
    · have hsz : v.size = 0 := by rw [hv]; rfl
      rw [hsz] at ht
      have hle := (tiles_region vs _ _ h).1
      rcases ht with ht | ht
      · refine ⟨by omega, ?_⟩
        intro w hw hne
        left
        have := hreg.2 w hw hne
        omega
      · obtain ⟨h1, h2⟩ := ih _ _ h t ht
        refine ⟨h1, ?_⟩
        intro w hw hne
        simp only [List.mem_cons] at hw
        rcases hw with hw | hw
        · rw [hw] at hne; exact absurd hv hne
        · exact h2 w hw hne
    · have hle := (tiles_region vs _ _ h).1
      rcases ht with ht | ht
      · refine ⟨by omega, ?_⟩
        intro w hw hne
        left
        have := hreg.2 w hw hne
        omega
      · obtain ⟨h1, h2⟩ := ih _ _ h t ht
        refine ⟨h1, ?_⟩
        intro w hw hne
        simp only [List.mem_cons] at hw
        rcases hw with hw | hw
        · right
          have := tag_offsets_ge vs _ t ht
          rw [hw]; omega
        · exact h2 w hw hne

/-! ## The byte budget of the fill loop -/

theorem read_rows_at_first (k : Nat) (b : record_block) (s : Socket) (n : Nat)
    (x : record_block × Socket × Nat) (h : read_rows_at (k + 1) b s n = some x) :
    ∃ b1 s1 next, b.read_data_row s n = some ⟨b1, s1, .ok ()⟩ ∧
      message_header s1 = (s1.drop 5, .ok next) ∧ next.type = 68 ∧
      next.body_size ≤ b1.remaining ∧
      read_rows_at k b1 (s1.drop 5) next.body_size = some x := by
  unfold read_rows_at at h
  cases hrd : b.read_data_row s n with
  | none => rw [hrd] at h; simp at h
  | some r1 =>
    obtain ⟨b1, s1, res⟩ := r1
    rw [hrd] at h
    cases res with
    | error e => simp at h
    | ok u =>
      cases u
      simp only at h
      cases hh : message_header s1 with
      | mk s2 hres =>
        rw [hh] at h
        cases hres with
        | error e => simp at h
        | ok next =>
          simp only at h
          obtain ⟨hs2, -⟩ := message_header_ok _ _ _ hh
          subst hs2
          by_cases hc : next.type = 68 ∧ next.body_size ≤ b1.remaining
          · simp only [hc, and_self, if_true] at h
            exact ⟨b1, s1, next, rfl, hh, hc.1, hc.2, h⟩
          · simp only [hc, if_false] at h
            cases h

theorem read_rows_at_last : ∀ (k : Nat) (b : record_block) (s : Socket) (n : Nat)
    (b2 : record_block) (s2 : Socket) (n2 : Nat),
    read_rows_at (k + 1) b s n = some (b2, s2, n2) →
    ∃ s1 next, header_at k b s n = some (b2, s1, next) ∧ s2 = s1.drop 5 ∧
      n2 = next.body_size ∧ next.type = 68 ∧ n2 ≤ b2.remaining := by
  intro k
  induction k with
  | zero =>
    intro b s n b2 s2 n2 h
    obtain ⟨b1, s1, next, hrd, hh, ht, hb, h0⟩ := read_rows_at_first 0 b s n _ h
    simp only [read_rows_at, Option.some.injEq, Prod.mk.injEq] at h0
    obtain ⟨e1, e2, e3⟩ := h0
    subst e1 e2 e3
    exact ⟨s1, next, header_at_zero b s n _ _ _ next hrd hh, rfl, rfl, ht, hb⟩
  | succ k ih =>
    intro b s n b2 s2 n2 h
    obtain ⟨b1, s1, next, hrd, hh, ht, hb, h0⟩ := read_rows_at_first (k + 1) b s n _ h
    obtain ⟨s3, next3, hk, e2, e3, ht3, hb3⟩ := ih _ _ _ _ _ _ h0
    refine ⟨s3, next3, ?_, e2, e3, ht3, hb3⟩
    rw [header_at_succ k b s n b1 s1 _ next hrd hh ht hb]
    exact hk

theorem decoded_sizes_sum : ∀ (k : Nat) (b : record_block) (s : Socket) (n : Nat)
    (b1 : record_block) (s1 : Socket) (next : header),
    header_at k b s n = some (b1, s1, next) →
    b1.used_bytes = b.used_bytes + (decoded_sizes k b s n).sum ∧
      b1.remaining + (decoded_sizes k b s n).sum = b.remaining := by
  intro k
  induction k with
  | zero =>
    intro b s n b1 s1 next h
    obtain ⟨bk, sk, nk, hat, hrd, -⟩ := header_at_last 0 b s n b1 s1 next h
    simp only [read_rows_at, Option.some.injEq, Prod.mk.injEq] at hat
    obtain ⟨e1, e2, e3⟩ := hat
    subst e1 e2 e3
    obtain ⟨-, hu, hrem, -⟩ := read_data_row_ok_size _ _ _ _ hrd rfl
    simp only at hu hrem
    have hsum : (decoded_sizes 0 b s n).sum = n := by
      simp [decoded_sizes, List.range_succ, read_rows_at]
    rw [hsum]
    exact ⟨hu, hrem⟩
  | succ k ih =>
    intro b s n b1 s1 next h
    obtain ⟨bk, sk, nk, hat, hrd, -⟩ := header_at_last (k + 1) b s n b1 s1 next h
    obtain ⟨s0, next0, hk, -, -, -, -⟩ := read_rows_at_last k b s n _ _ _ hat
    obtain ⟨ihu, ihr⟩ := ih _ _ _ _ _ _ hk
    obtain ⟨-, hu, hrem, -⟩ := read_data_row_ok_size _ _ _ _ hrd rfl
    simp only at hu hrem
    have hsum : (decoded_sizes (k + 1) b s n).sum = (decoded_sizes k b s n).sum + nk := by
      simp only [decoded_sizes]
      rw [List.range_succ, List.map_append, List.sum_append]
      simp [hat]
    rw [hsum]
    omega

theorem read_data_row_capacity (b : record_block) (s : Socket) (n : Nat) (r : Run Unit)
    (hcap : n ≤ b.remaining) (h : b.read_data_row s n = some r) :
    r.result ≠ .error .capacity_exceeded := by
  intro he
  unfold record_block.read_data_row at h
  simp only [hcap, not_true_eq_false, if_false, unaligned_slab.allocate, transfer] at h
  by_cases hs : n ≤ s.length
  · simp only [hs, if_true] at h
    split at h
    · rename_i x e2 h16
      cases h
      unfold decoder.read_int16 at h16
      split at h16
      · cases h16
      · cases h16; cases he
    · rename_i x i d2 h16
      split at h
      · cases h
      · rename_i fields e2 hd
        cases h
        have := decode_fields_error _ _ _ _ _ hd
        simp only at he
        rw [this] at he
        cases he
      · rename_i fields hd
        split at h
        · cases h; cases he
        · cases h; cases he
  · simp only [hs, if_false] at h
    cases h; cases he

theorem read_rows_loop_capacity : ∀ (f : Nat) (b : record_block) (s : Socket) (n : Nat)
    (r : Run Nat), n ≤ b.remaining → read_rows_loop f b s n = some r →
    r.result ≠ .error .capacity_exceeded := by
  intro f
  induction f with
  | zero => intro b s n r _ h; simp [read_rows_loop] at h
  | succ f ih =>
    intro b s n r hcap h
    rw [read_rows_loop] at h
    cases hrd : b.read_data_row s n with
    | none => rw [hrd] at h; simp at h
    | some r1 =>
      have hne := read_data_row_capacity b s n r1 hcap hrd
      obtain ⟨b1, s1, res⟩ := r1
      rw [hrd] at h
      cases res with
      | error e =>
        simp only [Option.some.injEq] at h
        rw [← h]
        intro he
        cases he
        exact hne rfl
      | ok u =>
        cases u
        simp only at h
        cases hh : message_header s1 with
        | mk s2 hres =>
          rw [hh] at h
          cases hres with
          | error e =>
            simp only [Option.some.injEq] at h
            rw [← h, message_header_error _ _ _ hh]
            simp
          | ok next =>
            simp only at h
            by_cases ht : next.type = 68
            · simp only [ht, if_true] at h
              by_cases hb : next.body_size ≤ b1.remaining
              · simp only [hb, if_true] at h
                exact ih _ _ _ _ hb h
              · simp only [hb, if_false, Option.some.injEq] at h
                rw [← h]; simp
            · simp only [ht, if_false] at h
              by_cases hc : next.type = 67
              · simp only [hc, if_true, header.message_body] at h
                by_cases hl : next.body_size ≤ s2.length
                · simp only [hl, if_true, Option.some.injEq] at h
                  rw [← h]; simp
                · simp only [hl, if_false, Option.some.injEq] at h
                  rw [← h]; simp
              · simp only [hc, if_false, Option.some.injEq] at h
                rw [← h]; simp

/-! ## Earlier fields are kept -/

theorem read_data_row_new_views (b : record_block) (s : Socket) (n : Nat) (r : Run Unit)
    (h : b.read_data_row s n = some r) :
    ∃ more, r.block.m_fields = b.m_fields ++ more ∧
      ∀ v ∈ more, v.offset + v.size ≤ b.m_buffer.m_allocated + n := by
  rcases read_data_row_cases b s n r h with ⟨_, hr⟩ | ⟨_, _, hr⟩ | ⟨hcap, hs, -⟩
  · rw [hr]; exact ⟨[], by simp, by simp⟩
  · rw [hr]; exact ⟨[], by simp, by simp⟩
  · rw [read_data_row_unfold b s n hcap hs] at h
    have hlen : (s.take n).length = n := by simp; omega
    match htake : s.take n with
    | [] =>
      rw [htake] at h
      simp only [decoder.read_int16, Option.some.injEq] at h
      rw [← h]; exact ⟨[], by simp, by simp⟩
    | [x] =>
      rw [htake] at h
      simp only [decoder.read_int16, Option.some.injEq] at h
      rw [← h]; exact ⟨[], by simp, by simp⟩
    | c0 :: c1 :: body =>
      rw [htake] at h hlen
      simp only [List.length_cons] at hlen
      simp only [decoder.read_int16, decoder.remaining] at h
      split at h
      · cases h
      · rename_i fields e hd
        cases h
        obtain ⟨more, hm, hb, -⟩ := decode_fields_layout _ _ _ _ _ hd
        refine ⟨more, hm, ?_⟩
        intro v hv
        have := hb v hv
        simp only at this
        omega
      · rename_i fields hd
        obtain ⟨more, hm, hb, -⟩ := decode_fields_layout _ _ _ _ _ hd
        have hb2 : ∀ v ∈ more, v.offset + v.size ≤ b.m_buffer.m_allocated + n := by
          intro v hv
          have := hb v hv
          simp only at this
          omega
        split at h
        · cases h; exact ⟨more, hm, hb2⟩
        · cases h; exact ⟨more, hm, hb2⟩

theorem read_data_row_keep (b : record_block) (s : Socket) (n : Nat) (r : Run Unit)
    (hal : b.m_buffer.m_allocated ≤ b.m_buffer.memory.length)
    (hv : ∀ v ∈ b.m_fields, v.offset + v.size ≤ b.m_buffer.m_allocated)
    (h : b.read_data_row s n = some r) :
    r.block.m_buffer.m_allocated ≤ r.block.m_buffer.memory.length ∧
    (∀ v ∈ r.block.m_fields, v.offset + v.size ≤ r.block.m_buffer.m_allocated) ∧
    b.m_buffer.m_allocated ≤ r.block.m_buffer.m_allocated ∧
    (∀ v : byte_view, v.offset + v.size ≤ b.m_buffer.m_allocated →
      view_bytes r.block.m_buffer.memory v = view_bytes b.m_buffer.memory v) := by
  obtain ⟨more, hm, hnew⟩ := read_data_row_new_views b s n r h
  obtain ⟨hlen, hal2⟩ := read_data_row_arena b.m_buffer.memory.length b s n r ⟨rfl, hal⟩ h
  have hgrow : b.m_buffer.m_allocated ≤ r.block.m_buffer.m_allocated ∧
      (∀ w ∈ more, w.offset + w.size ≤ r.block.m_buffer.m_allocated) ∧
      (∀ v : byte_view, v.offset + v.size ≤ b.m_buffer.m_allocated →
        view_bytes r.block.m_buffer.memory v = view_bytes b.m_buffer.memory v) := by
    rcases read_data_row_cases b s n r h with ⟨_, hr⟩ | ⟨_, _, hr⟩ | ⟨_, _, _, _, hbuf, _, _⟩
    · rw [hr] at hm ⊢
      have : more = [] := by simpa using hm
      subst this
      exact ⟨le_refl _, by simp, fun _ _ => rfl⟩
    · rw [hr] at hm ⊢
      have : more = [] := by simpa using hm
      subst this
      exact ⟨by simp, by simp, fun _ _ => rfl⟩
    · rw [hbuf]
      refine ⟨by simp, hnew, ?_⟩
      intro v hvb
      exact view_bytes_store _ _ _ v hvb hal
  refine ⟨by rw [hlen]; exact hal2, ?_, hgrow.1, hgrow.2.2⟩
  intro v hvm
  rw [hm] at hvm
  simp only [List.mem_append] at hvm
  rcases hvm with hvm | hvm
  · have := hv v hvm; omega
  · exact hgrow.2.1 v hvm

theorem reachable_views (column_count record_size capacity : Nat) (b : record_block)
    (h : reachable column_count record_size capacity b) :
    b.m_buffer.m_allocated ≤ b.m_buffer.memory.length ∧
      ∀ v ∈ b.m_fields, v.offset + v.size ≤ b.m_buffer.m_allocated := by
  induction h with
  | create => simp [record_block.create, unaligned_slab.create]
  | read_data_row b s n r _ hrd ih =>
    obtain ⟨h1, h2, -, -⟩ := read_data_row_keep b s n r ih.1 ih.2 hrd
    exact ⟨h1, h2⟩
  | read_rows b s n r _ hrd ih =>
    exact read_rows_loop_invariant
      (fun x => x.m_buffer.m_allocated ≤ x.m_buffer.memory.length ∧
        ∀ v ∈ x.m_fields, v.offset + v.size ≤ x.m_buffer.m_allocated)
      (fun b2 s2 n2 r2 hP h2 =>
        ⟨(read_data_row_keep b2 s2 n2 r2 hP.1 hP.2 h2).1,
          (read_data_row_keep b2 s2 n2 r2 hP.1 hP.2 h2).2.1⟩) _ b s n r ih hrd

theorem reachable_columns (column_count record_size capacity : Nat) (b : record_block)
    (h : reachable column_count record_size capacity b) : b.m_columns = column_count := by
  induction h with
  | create => rfl
  | read_data_row b s n r _ hrd ih => rw [read_data_row_columns b s n r hrd]; exact ih
  | read_rows b s n r _ hrd ih => rw [read_rows_loop_columns _ b s n r hrd]; exact ih

theorem read_rows_loop_keep (f : Nat) (b : record_block) (s : Socket) (n : Nat) (r : Run Nat)
    (hal : b.m_buffer.m_allocated ≤ b.m_buffer.memory.length)
    (hv : ∀ v ∈ b.m_fields, v.offset + v.size ≤ b.m_buffer.m_allocated)
    (h : read_rows_loop f b s n = some r) :
    ∀ v : byte_view, v.offset + v.size ≤ b.m_buffer.m_allocated →
      view_bytes r.block.m_buffer.memory v = view_bytes b.m_buffer.memory v := by
  have := read_rows_loop_invariant
    (fun x => x.m_buffer.m_allocated ≤ x.m_buffer.memory.length ∧
      (∀ v ∈ x.m_fields, v.offset + v.size ≤ x.m_buffer.m_allocated) ∧
      b.m_buffer.m_allocated ≤ x.m_buffer.m_allocated ∧
      (∀ v : byte_view, v.offset + v.size ≤ b.m_buffer.m_allocated →
        view_bytes x.m_buffer.memory v = view_bytes b.m_buffer.memory v))
    (fun b2 s2 n2 r2 hP h2 => by
      obtain ⟨p1, p2, p3, p4⟩ := hP
      obtain ⟨q1, q2, q3, q4⟩ := read_data_row_keep b2 s2 n2 r2 p1 p2 h2
      refine ⟨q1, q2, by omega, ?_⟩
      intro v hvb
      rw [q4 v (by omega), p4 v hvb])
    f b s n r ⟨hal, hv, le_refl _, fun _ _ => rfl⟩ h
  exact this.2.2.2

theorem map_view_bytes_eq (fields : List byte_view) (m1 m2 : List Byte)
    (h : ∀ v ∈ fields, view_bytes m1 v = view_bytes m2 v) :
    fields.map (view_bytes m1) = fields.map (view_bytes m2) :=
  List.map_congr_left h

/-! ## Lengths that are not the length of a field -/

theorem be_uint32_lt (b0 b1 b2 b3 : Byte) : be_uint32 b0 b1 b2 b3 < 2 ^ 32 := by
  have h0 := b0.isLt
  have h1 := b1.isLt
  have h2 := b2.isLt
  have h3 := b3.isLt
  simp only [be_uint32]
  norm_num
  omega

theorem to_int32_ge (n : Nat) (h : n < 2 ^ 32) : -(2 ^ 31 : Int) ≤ to_int32 n ∧ to_int32 n < 2 ^ 31 := by
  unfold to_int32
  norm_num at h ⊢
  split <;> omega

theorem to_size_t_neg (i : Int) (h1 : -(2 ^ 31 : Int) ≤ i) (h2 : i < 0) :
    2 ^ 63 ≤ to_size_t i := by
  unfold to_size_t
  norm_num at h1 ⊢
  omega

theorem to_size_t_pos (i : Int) (h1 : 0 ≤ i) (h2 : i < 2 ^ 31) : (to_size_t i : Int) = i := by
  unfold to_size_t
  norm_num at h2 ⊢
  omega

theorem decode_fields_encoded_then : ∀ (row : List Field) (o : Nat) (acc : List byte_view)
    (fuel : Nat) (tail : List Byte),
    (∀ f ∈ row, ∀ value, f = some value → value.length < 2 ^ 31) →
    decode_fields (row.length + fuel) ⟨encode_fields row ++ tail, o⟩ acc
      = decode_fields fuel ⟨tail, o + (encode_fields row).length⟩ (acc ++ field_views o row) := by
  intro row
  induction row with
  | nil =>
    intro o acc fuel tail _
    simp [encode_fields, field_views]
  | cons f fs ih =>
    intro o acc fuel tail hrow
    have hfs : ∀ g ∈ fs, ∀ value, g = some value → value.length < 2 ^ 31 :=
      fun g hg => hrow g (List.mem_cons_of_mem _ hg)
    rw [show (f :: fs).length + fuel = (fs.length + fuel) + 1 by simp; omega]
    rw [decode_fields]
    have hne : ¬ (decoder.remaining ⟨encode_fields (f :: fs) ++ tail, o⟩ = 0) := by
      have := length_encode_field f
      simp only [decoder.remaining, encode_fields, List.length_append]
      omega
    simp only [hne, if_false]
    cases f with
    | none =>
      have h32 : decoder.read_int32 ⟨encode_fields (none :: fs) ++ tail, o⟩
          = .ok (-1, ⟨encode_fields fs ++ tail, o + 4⟩) := by
        simp only [decoder.read_int32, encode_fields, encode_field, List.cons_append,
          List.nil_append]
        have : to_int32 (be_uint32 255 255 255 255) = -1 := by decide
        rw [this]
      rw [h32]
      simp only [if_true]
      rw [ih (o + 4) _ fuel tail hfs]
      simp only [field_views, encode_fields, encode_field, List.length_append, List.length_cons,
        List.length_nil, List.append_assoc, List.singleton_append]
      rw [show o + 4 + (encode_fields fs).length
        = o + (0 + 1 + 1 + 1 + 1 + (encode_fields fs).length) by omega]
    | some value =>
      have hv : value.length < 2 ^ 31 := hrow (some value) (List.mem_cons_self _ _) value rfl
      have h32 : decoder.read_int32 ⟨encode_fields (some value :: fs) ++ tail, o⟩
          = .ok ((value.length : Int), ⟨value ++ (encode_fields fs ++ tail), o + 4⟩) := by
        simp only [decoder.read_int32, encode_fields, encode_field, put_uint32,
          List.cons_append, List.nil_append, List.append_assoc]
        rw [be_uint32_put _ (by omega), to_int32_small _ hv]
      rw [h32]
      have hneg : ¬ ((value.length : Int) = -1) := by omega
      simp only [hneg, if_false]
      rw [to_size_t_nat _ (by omega)]
      have hb : decoder.read_bytes ⟨value ++ (encode_fields fs ++ tail), o + 4⟩ value.length
          = .ok (⟨o + 4, value.length⟩, ⟨encode_fields fs ++ tail, o + 4 + value.length⟩) := by
        simp [decoder.read_bytes]
      rw [hb]
      simp only
      rw [ih (o + 4 + value.length) _ fuel tail hfs]
      simp only [field_views, encode_fields, encode_field, List.length_append,
        length_put_uint32, List.append_assoc, List.singleton_append]
      rw [show o + 4 + value.length + (encode_fields fs).length
        = o + (4 + (value.length + (encode_fields fs).length)) by omega]

theorem decode_fields_bad (fuel o : Nat) (acc : List byte_view) (tail : List Byte)
    (hbad : bad_field tail) (hsize : tail.length < 2 ^ 63) :
    decode_fields (fuel + 1) ⟨tail, o⟩ acc = some (acc, .error .read_past_end) := by
  rw [decode_fields]
  match tail, hbad, hsize with
  | [], hbad, _ => exact absurd hbad (by simp [bad_field])
  | [a], _, _ => simp [decoder.remaining, decoder.read_int32]
  | [a, c], _, _ => simp [decoder.remaining, decoder.read_int32]
  | [a, c, d], _, _ => simp [decoder.remaining, decoder.read_int32]
  | l0 :: l1 :: l2 :: l3 :: payload, hbad, hsize =>
    simp only [bad_field] at hbad
    simp only [List.length_cons] at hsize
    obtain ⟨hlo, hhi⟩ := to_int32_ge _ (be_uint32_lt l0 l1 l2 l3)
    have hne : ¬ (to_int32 (be_uint32 l0 l1 l2 l3) = -1) := by
      rcases hbad with h | h
      · omega
      · omega
    have hover : ¬ (to_size_t (to_int32 (be_uint32 l0 l1 l2 l3)) ≤ payload.length) := by
      rcases hbad with h | h
      · have := to_size_t_neg _ hlo (by omega)
        omega
      · have := to_size_t_pos _ (by omega) hhi
        omega
    simp [decoder.remaining, decoder.read_int32, decoder.read_bytes, hne, hover]

/-! ## The outcome of one row in full -/

theorem read_int16_eq (data : List Byte) (a : Nat) :
    decoder.read_int16 ⟨data, a⟩ =
      if 2 ≤ data.length then
        .ok (to_int16 (be_uint16 (data.getD 0 0) (data.getD 1 0)), ⟨data.drop 2, a + 2⟩)
      else .error .read_past_end := by
  match data with
  | [] => simp [decoder.read_int16]
  | [x] => simp [decoder.read_int16]
  | x :: y :: rest => simp [decoder.read_int16]

theorem read_data_row_result (b : record_block) (s : Socket) (n : Nat)
    (hcap : n ≤ b.remaining) (hs : n ≤ s.length) :
    ∃ r, b.read_data_row s n = some r ∧
      ((¬ 2 ≤ n ∧ r.result = .error .read_past_end ∧ r.block.m_fields = b.m_fields) ∨
       (2 ≤ n ∧ ∃ fields res,
          decode_fields (n - 2) ⟨(s.take n).drop 2, b.m_buffer.m_allocated + 2⟩ b.m_fields
            = some (fields, res) ∧
          r.block.m_fields = fields ∧
          r.result = (match res with
            | .error e => .error e
            | .ok () => if fields.length % b.m_columns = 0 then .ok ()
                else .error .field_count_misaligned))) ∧
      r.socket = s.drop n ∧
      r.block.m_buffer.m_allocated = b.m_buffer.m_allocated + n ∧
      r.block.m_buffer.memory.length = b.m_buffer.memory.length := by
  have hlen : (s.take n).length = n := by simp; omega
  have hcap2 := hcap
  simp only [record_block.remaining, unaligned_slab.remaining] at hcap2
  have hst := length_store_bytes b.m_buffer.memory b.m_buffer.m_allocated (s.take n)
  rw [read_data_row_unfold b s n hcap hs, read_int16_eq, hlen]
  by_cases h2 : 2 ≤ n
  · rw [if_pos h2]
    simp only [decoder.remaining, List.length_drop, hlen]
    obtain ⟨⟨fields, res⟩, hd⟩ := decode_fields_total (n - 2)
      ⟨(s.take n).drop 2, b.m_buffer.m_allocated + 2⟩ b.m_fields
      (by simp only [decoder.remaining, List.length_drop, hlen]; exact le_refl _)
    rw [hd]
    have hst2 := hst (by rw [hlen]; omega)
    cases res with
    | error e => exact ⟨_, rfl, Or.inr ⟨h2, fields, _, rfl, rfl, rfl⟩, rfl, rfl, hst2⟩
    | ok u =>
      cases u
      simp only
      by_cases hm : fields.length % b.m_columns = 0
      · simp only [hm, if_true]
        exact ⟨_, rfl, Or.inr ⟨h2, fields, _, rfl, rfl, by simp [hm]⟩, rfl, rfl, hst2⟩
      · simp only [hm, if_false]
        exact ⟨_, rfl, Or.inr ⟨h2, fields, _, rfl, rfl, by simp [hm]⟩, rfl, rfl, hst2⟩
  · rw [if_neg h2]
    refine ⟨_, rfl, Or.inl ⟨h2, rfl, rfl⟩, rfl, rfl, ?_⟩
    by_cases h0 : n = 0
    · subst h0
      have : s.take 0 = [] := rfl
      simp [store_bytes, this]
    · exact hst (by rw [hlen]; omega)

/-! ## The decode loop at a NULL field -/

/-- One pass of the decode loop at a length tag of -1: the loop goes on with the
zero-length view appended and the cursor four bytes further. -/
theorem decode_fields_null (fuel : Nat) (d d2 : decoder) (acc : List byte_view)
    (h : d.read_int32 = .ok (-1, d2)) :
    decode_fields (fuel + 1) d acc = decode_fields fuel d2 (acc ++ [byte_view.empty]) ∧
      byte_view.empty.size = 0 ∧ d2.offset = d.offset + 4 ∧ d2.data = d.data.drop 4 ∧
      d2.remaining + 4 = d.remaining := by
  have hrem := read_int32_remaining d d2 (-1) h
  refine ⟨?_, rfl, ?_, ?_, hrem⟩
  · rw [decode_fields]
    have h0 : ¬ d.remaining = 0 := by omega
    simp only [h0, if_false, h, if_true]
  · unfold decoder.read_int32 at h
    split at h
    · simp only [Except.ok.injEq, Prod.mk.injEq] at h
      rw [← h.2]
    · cases h
  · unfold decoder.read_int32 at h
    split at h
    · rename_i b0 b1 b2 b3 rest hd
      simp only [Except.ok.injEq, Prod.mk.injEq] at h
      rw [← h.2, hd]; rfl
    · cases h

theorem decode_fields_mono : ∀ (fuel : Nat) (d : decoder) (acc : List byte_view)
    (r : List byte_view × Except Error Unit),
    decode_fields fuel d acc = some r → decode_fields (fuel + 1) d acc = some r := by
  intro fuel
  induction fuel with
  | zero =>
    intro d acc r h
    unfold decode_fields at h ⊢
    by_cases h0 : d.remaining = 0
    · simp only [h0, if_true] at h ⊢
      exact h
    · simp [h0] at h
  | succ fuel ih =>
    intro d acc r h
    rw [decode_fields] at h ⊢
    by_cases h0 : d.remaining = 0
    · simp only [h0, if_true] at h ⊢
      exact h
    · simp only [h0, if_false] at h ⊢
      cases h32 : d.read_int32 with
      | error e => rw [h32] at h; exact h
      | ok p =>
        obtain ⟨i, d2⟩ := p
        rw [h32] at h
        simp only at h ⊢
        by_cases hi : i = -1
        · simp only [hi, if_true] at h ⊢
          exact ih _ _ _ h
        · simp only [hi, if_false] at h ⊢
          cases hb : d2.read_bytes (to_size_t i) with
          | error e => rw [hb] at h; exact h
          | ok q =>
            obtain ⟨v, d3⟩ := q
            rw [hb] at h
            simp only at h ⊢
            exact ih _ _ _ h

theorem decode_fields_fuel (fuel : Nat) (d : decoder) (acc : List byte_view)
    (h : d.remaining ≤ fuel) : decode_fields fuel d acc = decode_fields d.remaining d acc := by
  obtain ⟨r, hr⟩ := decode_fields_total d.remaining d acc (le_refl _)
  rw [hr]
  obtain ⟨j, rfl⟩ : ∃ j, fuel = d.remaining + j := ⟨fuel - d.remaining, by omega⟩
  clear h
  induction j with
  | zero => exact hr
  | succ j ih => exact decode_fields_mono _ _ _ _ ih

theorem decode_fields_acc : ∀ (fuel : Nat) (d : decoder) (acc : List byte_view),
    decode_fields fuel d acc
      = (decode_fields fuel d []).map (fun p => (acc ++ p.1, p.2)) := by
  intro fuel
  induction fuel with
  | zero =>
    intro d acc
    unfold decode_fields
    by_cases h0 : d.remaining = 0
    · simp [h0]
    · simp [h0]
  | succ fuel ih =>
    intro d acc
    rw [decode_fields, decode_fields]
    by_cases h0 : d.remaining = 0
    · simp [h0]
    · simp only [h0, if_false]
      cases h32 : d.read_int32 with
      | error e => simp
      | ok p =>
        obtain ⟨i, d2⟩ := p
        simp only
        by_cases hi : i = -1
        · simp only [hi, if_true]
          rw [ih d2 (acc ++ [byte_view.empty]), ih d2 ([] ++ [byte_view.empty])]
          cases decode_fields fuel d2 [] with
          | none => rfl
          | some p => simp
        · simp only [hi, if_false]
          cases hb : d2.read_bytes (to_size_t i) with
          | error e => simp
          | ok q =>
            obtain ⟨v, d3⟩ := q
            simp only
            rw [ih d3 (acc ++ [v]), ih d3 ([] ++ [v])]
            cases decode_fields fuel d3 [] with
            | none => rfl
            | some p => simp

/-! ## The claims -/

/-- C1: for a column count of at least one and a non-empty list of rows, each
of that many fields, let the transport hold the body of the first row, the
later rows as row-data messages, one command-complete message, and then the
bytes `after`.  On a constructed block whose arena has room for the bodies of
all the rows, `read_rows` called with the size of the first body returns 0,
leaves the socket at `after`, and `fields()` is the fields of the rows in wire
order: a view of exactly its bytes for each string and a view of zero length for
each NULL. -/
theorem read_rows_row_stream (column_count record_size capacity : Nat) (first : List Field)
    (rows : List (List Field)) (done after : List Byte) (_hc : 1 ≤ column_count)
    (hrows : ∀ row ∈ first :: rows, row.length = column_count ∧ sendable row)
    (hdone : done.length + 4 < 2 ^ 32) (hcap : body_sizes (first :: rows) ≤ capacity) :
    ∃ r, (record_block.create column_count record_size capacity).read_rows
        (row_stream first rows done after) (row_body first).length = some r ∧
      r.result = .ok 0 ∧ r.socket = after ∧
      List.Forall₂ (field_matches r.block.m_buffer.memory) r.block.fields
        (all_fields (first :: rows)) ∧
      r.block.field_values = (all_fields (first :: rows)).map field_value := by
  have hfirst : (row_body first).length ≤ capacity := by
    simp only [body_sizes] at hcap; omega
  obtain ⟨r, hr, hcase⟩ := read_rows_create_rows column_count record_size capacity first rows
    done after hrows hdone hfirst
  rcases hcase with ⟨hres, hsock, hh, -⟩ | ⟨pre, next, post, hsplit, -, -, -, hrem, hlt⟩
  · exact ⟨r, hr, hres, hsock, hh.1, holds_field_values _ _ hh⟩
  · exfalso
    have hsum : body_sizes (first :: rows)
        = body_sizes (first :: pre) + ((row_body next).length + body_sizes post) := by
      rw [hsplit]
      simp only [body_sizes, body_sizes_append]
      omega
    omega

theorem read_rows_row_stream_witness :
    1 ≤ 2 ∧ (∀ row ∈ [some [97, 98], none] :: ([] : List (List Field)),
        row.length = 2 ∧ sendable row) ∧
    ([1, 2] : List Byte).length + 4 < 2 ^ 32 ∧
    body_sizes ([some [97, 98], none] :: []) ≤ 16 ∧
    row_stream [some [97, 98], none] [] [1, 2] [9] = sample_stream_ab ∧
    (row_body [some [97, 98], none]).length = 12 ∧
    all_fields ([some [97, 98], none] :: []) = [some [97, 98], none] ∧
    (record_block.create 2 512 16).read_rows sample_stream_ab 12
      = some ⟨sample_block_ab, [9], .ok 0⟩ ∧
    sample_block_ab.fields = [⟨6, 2⟩, ⟨0, 0⟩] ∧
    sample_block_ab.field_values = [[97, 98], []] ∧
    ∃ r, (record_block.create 2 512 16).read_rows
        (row_stream [some [97, 98], none] [] [1, 2] [9])
        (row_body [some [97, 98], none]).length = some r ∧
      r.result = .ok 0 ∧ r.socket = [9] ∧
      List.Forall₂ (field_matches r.block.m_buffer.memory) r.block.fields
        (all_fields ([some [97, 98], none] :: [])) ∧
      r.block.field_values = (all_fields ([some [97, 98], none] :: [])).map field_value :=
  ⟨by decide, by decide, by decide, by decide, by decide, by decide, by decide, by decide,
    by decide, by decide,
    read_rows_row_stream 2 512 16 [some [97, 98], none] [] [1, 2] [9] (by decide) (by decide)
      (by decide) (by decide)⟩

/-- C2: whenever `read_rows` returns a value, the value is 0 exactly when some
pass of the loop decoded a row and then read a header with the command-complete
tag C (67) whose whole body was on the transport; the call then ends with the
block as that row left it and the socket at the first byte after that body. -/
theorem read_rows_zero_iff_command_complete (b : record_block) (s : Socket) (n : Nat)
    (r : Run Nat) (v : Nat) (h : b.read_rows s n = some r) (hv : r.result = .ok v) :
    v = 0 ↔ ∃ k b1 s1 next, header_at k b s n = some (b1, s1, next) ∧ next.type = 67 ∧
      next.body_size ≤ (s1.drop 5).length ∧ r.block = b1 ∧
      r.socket = (s1.drop 5).drop next.body_size := by
  constructor
  · intro hz
    rcases read_rows_loop_end _ b s n r h with ⟨e, he, -⟩ | ⟨k, b1, s1, next, hk, hb, hcase⟩
    · rw [he] at hv; cases hv
    · rcases hcase with ⟨_, hlt, _, hres⟩ | ⟨ht, hl, hs, _⟩ | ⟨_, _, _, hres⟩
      · rw [hres] at hv
        cases hv
        omega
      · exact ⟨k, b1, s1, next, hk, ht, hl, hb, hs⟩
      · rw [hres] at hv; cases hv
  · rintro ⟨k, b1, s1, next, hk, ht, hl, hb, hs⟩
    have hloop := read_rows_loop_header_at k b s n b1 s1 next hk 0
    have h68 : ¬ next.type = 68 := by rw [ht]; decide
    simp only [h68, if_false, ht, if_true, hl] at hloop
    have := read_rows_loop_unique _ _ b s n _ _ h hloop
    rw [this] at hv
    cases hv
    rfl

theorem read_rows_zero_iff_command_complete_witness :
    sample_block_two.read_rows sample_stream_ab 12 = some ⟨sample_block_ab, [9], .ok 0⟩ ∧
    ((0 : Nat) = 0 ↔ ∃ k b1 s1 next,
      header_at k sample_block_two sample_stream_ab 12 = some (b1, s1, next) ∧ next.type = 67 ∧
      next.body_size ≤ (s1.drop 5).length ∧ sample_block_ab = b1 ∧
      [9] = (s1.drop 5).drop next.body_size) :=
  ⟨by decide, read_rows_zero_iff_command_complete sample_block_two sample_stream_ab 12
    ⟨sample_block_ab, [9], .ok 0⟩ 0 (by decide) rfl⟩

/-- C3, as amended: whenever `read_rows` ends, it has returned a positive `B`
exactly when some pass of the loop decoded a row and then read a header with
the row-data tag D (68) whose body size `B` exceeds what remains in the block;
and whenever a pass reads such a header, the call ends with the block as that
row left it and the socket five bytes on, past the header of the pending
message and before the first byte of its body. -/
theorem read_rows_positive_iff_row_too_big (b : record_block) (s : Socket) (n : Nat)
    (r : Run Nat) (B : Nat) (h : b.read_rows s n = some r) :
    ((r.result = .ok B ∧ 0 < B) ↔
      ∃ k b1 s1 next, header_at k b s n = some (b1, s1, next) ∧ next.type = 68 ∧
        next.body_size = B ∧ b1.remaining < B) ∧
    (∀ k b1 s1 next, header_at k b s n = some (b1, s1, next) → next.type = 68 →
      b1.remaining < next.body_size →
      r.result = .ok next.body_size ∧ r.block = b1 ∧ r.socket = s1.drop 5) := by
  have hback : ∀ k b1 s1 next, header_at k b s n = some (b1, s1, next) → next.type = 68 →
      b1.remaining < next.body_size → r = ⟨b1, s1.drop 5, .ok next.body_size⟩ := by
    intro k b1 s1 next hk ht hlt
    have hloop := read_rows_loop_header_at k b s n b1 s1 next hk 0
    have hnb : ¬ next.body_size ≤ b1.remaining := by omega
    simp only [ht, if_true, hnb, if_false] at hloop
    exact read_rows_loop_unique _ _ b s n _ _ h hloop
  refine ⟨⟨?_, ?_⟩, ?_⟩
  · rintro ⟨hv, hpos⟩
    rcases read_rows_loop_end _ b s n r h with ⟨e, he, -⟩ | ⟨k, b1, s1, next, hk, hb, hcase⟩
    · rw [he] at hv; cases hv
    · rcases hcase with ⟨ht, hlt, hs, hres⟩ | ⟨_, _, _, hres⟩ | ⟨_, _, _, hres⟩
      · rw [hres] at hv
        cases hv
        exact ⟨k, b1, s1, next, hk, ht, rfl, hlt⟩
      · rw [hres] at hv
        cases hv
        omega
      · rw [hres] at hv; cases hv
  · rintro ⟨k, b1, s1, next, hk, ht, hsz, hlt⟩
    subst hsz
    rw [hback k b1 s1 next hk ht hlt]
    exact ⟨rfl, by omega⟩
  · intro k b1 s1 next hk ht hlt
    rw [hback k b1 s1 next hk ht hlt]
    exact ⟨rfl, rfl, rfl⟩

theorem read_rows_positive_iff_row_too_big_witness :
    sample_block_one.read_rows sample_stream_big 6 = some ⟨sample_block_null, [1, 2, 9], .ok 50⟩ ∧
    header_at 0 sample_block_one sample_stream_big 6
      = some (sample_block_null, [68, 0, 0, 0, 54, 1, 2, 9], ⟨68, 50⟩) ∧
    sample_block_null.remaining = 10 ∧
    ((((.ok 50 : Except Error Nat) = .ok 50 ∧ 0 < 50) ↔
      ∃ k b1 s1 next, header_at k sample_block_one sample_stream_big 6 = some (b1, s1, next) ∧
        next.type = 68 ∧ next.body_size = 50 ∧ b1.remaining < 50) ∧
    (∀ k b1 s1 next, header_at k sample_block_one sample_stream_big 6 = some (b1, s1, next) →
      next.type = 68 → b1.remaining < next.body_size →
      (.ok 50 : Except Error Nat) = .ok next.body_size ∧ sample_block_null = b1 ∧
      [1, 2, 9] = s1.drop 5)) :=
  ⟨by decide, by decide, by decide,
    read_rows_positive_iff_row_too_big sample_block_one sample_stream_big 6
      ⟨sample_block_null, [1, 2, 9], .ok 50⟩ 50 (by decide)⟩

/-- C3, the claim as stated fails: on a block of 16 bytes the row of 6 bytes is
decoded, the next message is a row-data message that starts at the bytes
68, 0, 0, 0, 54 and declares a body of 50 bytes, more than the 10 that remain;
`read_rows` returns 50 with the socket at 1, 2, 9, so the five header bytes of
the pending message have been consumed. -/
theorem read_rows_positive_consumes_header :
    sample_block_one.read_rows sample_stream_big 6 = some ⟨sample_block_null, [1, 2, 9], .ok 50⟩ ∧
    header_at 0 sample_block_one sample_stream_big 6
      = some (sample_block_null, [68, 0, 0, 0, 54, 1, 2, 9], ⟨68, 50⟩) ∧
    sample_block_null.remaining = 10 ∧
    ([1, 2, 9] : Socket) ≠ [68, 0, 0, 0, 54, 1, 2, 9] := by
  decide

/-- C4: when a pass of the loop has decoded a row, leaving the block `b1`, and
the header read next has the row-data tag D (68) and a body size above what
remains in `b1`, then `read_rows` returns that body size; the block it leaves is
`b1` itself, so used bytes, remaining bytes and fields are those of the last
decoded row, and the socket stands right after the five header bytes, with the
body unread. -/
theorem read_rows_row_too_big (k : Nat) (b : record_block) (s : Socket) (n : Nat)
    (b1 : record_block) (s1 : Socket) (next : header)
    (h : header_at k b s n = some (b1, s1, next)) (ht : next.type = 68)
    (hb : b1.remaining < next.body_size) :
    ∃ r, b.read_rows s n = some r ∧ r.result = .ok next.body_size ∧ r.block = b1 ∧
      r.block.used_bytes = b1.used_bytes ∧ r.block.remaining = b1.remaining ∧
      r.block.fields = b1.fields ∧ r.socket = s1.drop 5 := by
  obtain ⟨r, hr⟩ := read_rows_total b s n
  have hloop := read_rows_loop_header_at k b s n b1 s1 next h 0
  have hnb : ¬ next.body_size ≤ b1.remaining := by omega
  simp only [ht, if_true, hnb, if_false] at hloop
  have := read_rows_loop_unique _ _ b s n _ _ hr hloop
  subst this
  exact ⟨_, hr, rfl, rfl, rfl, rfl, rfl, rfl⟩

theorem read_rows_row_too_big_witness :
    header_at 0 sample_block_one sample_stream_big 6
      = some (sample_block_null, [68, 0, 0, 0, 54, 1, 2, 9], ⟨68, 50⟩) ∧
    sample_block_null.remaining = 10 ∧
    ∃ r, sample_block_one.read_rows sample_stream_big 6 = some r ∧ r.result = .ok 50 ∧
      r.block = sample_block_null ∧
      r.block.used_bytes = sample_block_null.used_bytes ∧
      r.block.remaining = sample_block_null.remaining ∧
      r.block.fields = sample_block_null.fields ∧
      r.socket = ([68, 0, 0, 0, 54, 1, 2, 9] : Socket).drop 5 :=
  ⟨by decide, by decide,
    read_rows_row_too_big 0 sample_block_one sample_stream_big 6 sample_block_null
      [68, 0, 0, 0, 54, 1, 2, 9] ⟨68, 50⟩ (by decide) rfl (by decide)⟩

/-- C5: let the transport hold a non-empty list of rows, each of `column_count`
fields, ended by a command-complete message.  A caller that fills block after
block, starting each new block with the byte count that the one before
returned and giving it at least that capacity, ends with a block that returns
0; the field values of its blocks, concatenated in order, are the field values
of the one block that `read_rows` fills from the same transport when the arena
has room for all the rows. -/
theorem read_blocks_row_stream (column_count big fuel : Nat) (capacity : Nat → Nat → Nat)
    (first : List Field) (rows : List (List Field)) (done after : List Byte)
    (_hc : 1 ≤ column_count) (hpolicy : ∀ k n, n ≤ capacity k n)
    (hrows : ∀ row ∈ first :: rows, row.length = column_count ∧ sendable row)
    (hdone : done.length + 4 < 2 ^ 32) (hbig : body_sizes (first :: rows) ≤ big)
    (hfuel : rows.length < fuel) :
    ∃ blocks one, read_blocks column_count capacity fuel 0 (row_stream first rows done after)
        (row_body first).length = some (blocks, after) ∧
      (record_block.create column_count 512 big).read_rows (row_stream first rows done after)
        (row_body first).length = some one ∧
      one.result = .ok 0 ∧ one.socket = after ∧
      blocks_values blocks = one.block.field_values := by
  obtain ⟨blocks, hb, hv⟩ := read_blocks_rows column_count capacity done after hpolicy hdone
    rows.length rows first 0 fuel (le_refl _) hfuel hrows
  have hfirst : (row_body first).length ≤ big := by
    simp only [body_sizes] at hbig; omega
  obtain ⟨r, hr, hcase⟩ := read_rows_create_rows column_count 512 big first rows
    done after hrows hdone hfirst
  rcases hcase with ⟨hres, hsock, hh, -⟩ | ⟨pre, next, post, hsplit, -, -, -, hrem, hlt⟩
  · exact ⟨blocks, r, hb, hr, hres, hsock, by rw [hv, holds_field_values _ _ hh]⟩
  · exfalso
    have hsum : body_sizes (first :: rows)
        = body_sizes (first :: pre) + ((row_body next).length + body_sizes post) := by
      rw [hsplit]
      simp only [body_sizes, body_sizes_append]
      omega
    omega

theorem read_blocks_row_stream_witness :
    1 ≤ 1 ∧ (∀ k n : Nat, n ≤ (fun _ n => n) k n) ∧
    (∀ row ∈ [some [7]] :: [[none]], row.length = 1 ∧ sendable row) ∧
    ([] : List Byte).length + 4 < 2 ^ 32 ∧ body_sizes ([some [7]] :: [[none]]) ≤ 16 ∧
    ([[none]] : List (List Field)).length < 2 ∧
    ∃ blocks one, read_blocks 1 (fun _ n => n) 2 0 (row_stream [some [7]] [[none]] [] [9])
        (row_body [some [7]]).length = some (blocks, [9]) ∧
      (record_block.create 1 512 16).read_rows (row_stream [some [7]] [[none]] [] [9])
        (row_body [some [7]]).length = some one ∧
      one.result = .ok 0 ∧ one.socket = [9] ∧
      blocks_values blocks = one.block.field_values :=
  ⟨by decide, fun _ _ => Nat.le_refl _, by decide, by decide, by decide, by decide,
    read_blocks_row_stream 1 16 2 (fun _ n => n) [some [7]] [[none]] [] [9] (by decide)
      (fun _ _ => Nat.le_refl _) (by decide) (by decide) (by decide) (by decide)⟩

/-- C6: on a block with at least one column, when `read_data_row` completes the
number of fields is a multiple of the column count, and so it is when
`read_rows` returns; and a decode that would leave a number of fields that is
not such a multiple fails: if the same call on a block that differs only in
having one column, for which every number is a multiple, completes with a
number of fields that the column count does not divide, the call ends with the
field-count assertion failure. -/
theorem field_count_multiple_of_columns (b : record_block) (s : Socket) (n : Nat)
    (_hc : 1 ≤ b.m_columns) :
    (∀ r, b.read_data_row s n = some r → r.result = .ok () →
      r.block.fields.length % r.block.m_columns = 0) ∧
    (∀ r v, b.read_rows s n = some r → r.result = .ok v →
      r.block.fields.length % r.block.m_columns = 0) ∧
    (∀ r1, ({ b with m_columns := 1 } : record_block).read_data_row s n = some r1 →
      r1.result = .ok () → r1.block.fields.length % b.m_columns ≠ 0 →
      b.read_data_row s n
        = some ⟨{ r1.block with m_columns := b.m_columns }, r1.socket,
            .error .field_count_misaligned⟩) :=
  ⟨fun r h hok => read_data_row_ok_count b s n r h hok,
    fun r v h hok => read_rows_ok_count b s n r v h hok,
    fun r1 h hok hm => read_data_row_misaligned b s n r1 h hok hm⟩

theorem field_count_multiple_of_columns_witness :
    1 ≤ sample_block_two.m_columns ∧
    sample_block_two.read_data_row sample_stream_big 6
      = some ⟨⟨2, [⟨0, 0⟩], ⟨[0, 1, 255, 255, 255, 255, 0, 0, 0, 0, 0, 0, 0, 0, 0, 0], 6⟩⟩,
          [68, 0, 0, 0, 54, 1, 2, 9], .error .field_count_misaligned⟩ ∧
    ((∀ r, sample_block_two.read_data_row sample_stream_big 6 = some r → r.result = .ok () →
      r.block.fields.length % r.block.m_columns = 0) ∧
    (∀ r v, sample_block_two.read_rows sample_stream_big 6 = some r → r.result = .ok v →
      r.block.fields.length % r.block.m_columns = 0) ∧
    (∀ r1, ({ sample_block_two with m_columns := 1 } : record_block).read_data_row
        sample_stream_big 6 = some r1 →
      r1.result = .ok () → r1.block.fields.length % sample_block_two.m_columns ≠ 0 →
      sample_block_two.read_data_row sample_stream_big 6
        = some ⟨{ r1.block with m_columns := sample_block_two.m_columns }, r1.socket,
            .error .field_count_misaligned⟩)) :=
  ⟨by decide, by decide,
    field_count_multiple_of_columns sample_block_two sample_stream_big 6 (by decide)⟩

/-- C7: in every row body that `read_data_row` decodes, a field whose four-byte
length is -1 gets a view of zero length, and the cursor moves on by exactly the
four bytes of the tag.  Whatever well-formed fields stand before the tag and
whatever bytes follow it, `fields()` ends up as the fields before the call, the
views of the fields before the tag, the zero-length view, and then what the
decode loop appends for the bytes after the tag when its cursor starts at the
position of the tag plus four. -/
theorem read_data_row_null_field (b : record_block) (c0 c1 : Byte) (pre : List Field)
    (rest after : List Byte)
    (hpre : ∀ f ∈ pre, ∀ value, f = some value → value.length < 2 ^ 31)
    (hcap : 2 + (encode_fields pre).length + 4 + rest.length ≤ b.remaining) :
    ∃ r more res,
      b.read_data_row
          (c0 :: c1 :: (encode_fields pre ++ 255 :: 255 :: 255 :: 255 :: rest) ++ after)
          (2 + (encode_fields pre).length + 4 + rest.length) = some r ∧
      decode_fields rest.length
          ⟨rest, b.used_bytes + 2 + (encode_fields pre).length + 4⟩ [] = some (more, res) ∧
      r.block.fields
        = b.fields ++ field_views (b.used_bytes + 2) pre ++ byte_view.empty :: more ∧
      byte_view.empty.size = 0 ∧
      r.result = (match res with
        | .error e => .error e
        | .ok () => if r.block.fields.length % b.m_columns = 0 then .ok ()
            else .error .field_count_misaligned) ∧
      r.socket = after := by
  simp only [record_block.used_bytes, unaligned_slab.allocated, record_block.fields]
  have hbody : (c0 :: c1 :: (encode_fields pre ++ 255 :: 255 :: 255 :: 255 :: rest)).length
      = 2 + (encode_fields pre).length + 4 + rest.length := by
    simp only [List.length_cons, List.length_append]; omega
  have hs : 2 + (encode_fields pre).length + 4 + rest.length
      ≤ (c0 :: c1 :: (encode_fields pre ++ 255 :: 255 :: 255 :: 255 :: rest) ++ after).length := by
    rw [List.length_append, hbody]; omega
  have htake : (c0 :: c1 :: (encode_fields pre ++ 255 :: 255 :: 255 :: 255 :: rest)
      ++ after).take (2 + (encode_fields pre).length + 4 + rest.length)
      = c0 :: c1 :: (encode_fields pre ++ 255 :: 255 :: 255 :: 255 :: rest) :=
    List.take_left' hbody
  have hdrop : (c0 :: c1 :: (encode_fields pre ++ 255 :: 255 :: 255 :: 255 :: rest)
      ++ after).drop (2 + (encode_fields pre).length + 4 + rest.length) = after :=
    List.drop_left' hbody
  have hpl := length_encode_fields pre
  obtain ⟨f, hf, hfr⟩ : ∃ f, (encode_fields pre ++ 255 :: 255 :: 255 :: 255 :: rest).length
      = pre.length + (f + 1) ∧ rest.length ≤ f :=
    ⟨(encode_fields pre).length - pre.length + 3 + rest.length, by
      simp only [List.length_append, List.length_cons]; omega, by omega⟩
  have h32 : decoder.read_int32
      ⟨255 :: 255 :: 255 :: 255 :: rest, b.m_buffer.m_allocated + 2 + (encode_fields pre).length⟩
      = .ok (-1, ⟨rest, b.m_buffer.m_allocated + 2 + (encode_fields pre).length + 4⟩) := by
    simp only [decoder.read_int32]
    have : to_int32 (be_uint32 255 255 255 255) = -1 := by decide
    rw [this]
  obtain ⟨⟨more, res⟩, hd⟩ := decode_fields_total rest.length
    ⟨rest, b.m_buffer.m_allocated + 2 + (encode_fields pre).length + 4⟩ [] (le_refl _)
  have hdec : decode_fields (pre.length + (f + 1))
      ⟨encode_fields pre ++ 255 :: 255 :: 255 :: 255 :: rest, b.m_buffer.m_allocated + 2⟩
      b.m_fields
      = some (b.m_fields ++ field_views (b.m_buffer.m_allocated + 2) pre
          ++ byte_view.empty :: more, res) := by
    rw [decode_fields_encoded_then pre _ _ (f + 1) _ hpre,
      (decode_fields_null f _ _ _ h32).1,
      decode_fields_fuel f _ _ (by simpa [decoder.remaining] using hfr),
      decode_fields_acc]
    simp only [decoder.remaining]
    rw [hd]
    simp
  rw [read_data_row_unfold b _ _ hcap hs, htake, hdrop]
  simp only [decoder.read_int16, decoder.remaining]
  rw [hf, hdec]
  cases res with
  | error e => exact ⟨_, more, _, rfl, hd, rfl, rfl, rfl, rfl⟩
  | ok u =>
    cases u
    simp only
    split
    · rename_i hm
      exact ⟨_, more, _, rfl, hd, rfl, rfl, (if_pos hm).symm, rfl⟩
    · rename_i hm
      exact ⟨_, more, _, rfl, hd, rfl, rfl, (if_neg hm).symm, rfl⟩

theorem read_data_row_null_field_witness :
    (∀ f ∈ ([] : List Field), ∀ value, f = some value → value.length < 2 ^ 31) ∧
    2 + (encode_fields []).length + 4 + ([0, 0, 0, 1, 7] : List Byte).length
      ≤ sample_block_two.remaining ∧
    (0 :: 2 :: (encode_fields [] ++ 255 :: 255 :: 255 :: 255 :: [0, 0, 0, 1, 7])
      ++ [67, 0, 0, 0, 4] : Socket) = sample_stream_null_then ∧
    (sample_block_two.read_data_row sample_stream_null_then 11).map
      (fun r => (r.block.fields, r.socket, r.result))
      = some ([byte_view.empty, ⟨10, 1⟩], [67, 0, 0, 0, 4], .ok ()) ∧
    decode_fields 5 ⟨[0, 0, 0, 1, 7], 6⟩ [] = some ([⟨10, 1⟩], .ok ()) ∧
    ∃ r more res,
      sample_block_two.read_data_row
          (0 :: 2 :: (encode_fields [] ++ 255 :: 255 :: 255 :: 255 :: [0, 0, 0, 1, 7])
            ++ [67, 0, 0, 0, 4])
          (2 + (encode_fields []).length + 4 + ([0, 0, 0, 1, 7] : List Byte).length) = some r ∧
      decode_fields ([0, 0, 0, 1, 7] : List Byte).length
          ⟨[0, 0, 0, 1, 7], sample_block_two.used_bytes + 2 + (encode_fields []).length + 4⟩ []
        = some (more, res) ∧
      r.block.fields
        = sample_block_two.fields ++ field_views (sample_block_two.used_bytes + 2) []
          ++ byte_view.empty :: more ∧
      byte_view.empty.size = 0 ∧
      r.result = (match res with
        | .error e => .error e
        | .ok () => if r.block.fields.length % sample_block_two.m_columns = 0 then .ok ()
            else .error .field_count_misaligned) ∧
      r.socket = [67, 0, 0, 0, 4] :=
  ⟨by decide, by decide, by decide, by decide, by decide,
    read_data_row_null_field sample_block_two 0 2 [] [0, 0, 0, 1, 7] [67, 0, 0, 0, 4]
      (by decide) (by decide)⟩

/-- C8: whenever `read_rows` ends, it ends with the unknown-message-type error
for the tag `t` exactly when some pass of the loop decoded a row and then read
a header whose tag `t` is neither D (68) nor C (67); the call then has an error
and no value as its result. -/
theorem read_rows_unknown_type_iff (b : record_block) (s : Socket) (n : Nat) (r : Run Nat)
    (t : Byte) (h : b.read_rows s n = some r) :
    (r.result = .error (.unknown_message_type t) ↔
      ∃ k b1 s1 next, header_at k b s n = some (b1, s1, next) ∧ next.type = t ∧
        t ≠ 68 ∧ t ≠ 67) ∧
    (r.result = .error (.unknown_message_type t) → ∀ v, r.result ≠ .ok v) := by
  refine ⟨⟨?_, ?_⟩, ?_⟩
  · intro he
    rcases read_rows_loop_end _ b s n r h with ⟨e, he2, hne⟩ | ⟨k, b1, s1, next, hk, hb, hcase⟩
    · rw [he2] at he
      cases he
      exact absurd rfl (hne t)
    · rcases hcase with ⟨_, _, _, hres⟩ | ⟨_, _, _, hres⟩ | ⟨h68, h67, _, hres⟩
      · rw [hres] at he; cases he
      · rw [hres] at he; cases he
      · rw [hres] at he
        cases he
        exact ⟨k, b1, s1, next, hk, rfl, h68, h67⟩
  · rintro ⟨k, b1, s1, next, hk, ht, h68, h67⟩
    subst ht
    have hloop := read_rows_loop_header_at k b s n b1 s1 next hk 0
    simp only [h68, h67, if_false] at hloop
    have := read_rows_loop_unique _ _ b s n _ _ h hloop
    rw [this]
  · intro he v hv
    rw [he] at hv
    cases hv

theorem read_rows_unknown_type_iff_witness :
    sample_block_one.read_rows sample_stream_bad 6
      = some ⟨sample_block_null, [1, 2, 9], .error (.unknown_message_type 88)⟩ ∧
    (((.error (.unknown_message_type 88) : Except Error Nat) = .error (.unknown_message_type 88) ↔
      ∃ k b1 s1 next, header_at k sample_block_one sample_stream_bad 6 = some (b1, s1, next) ∧
        next.type = 88 ∧ (88 : Byte) ≠ 68 ∧ (88 : Byte) ≠ 67) ∧
    ((.error (.unknown_message_type 88) : Except Error Nat) = .error (.unknown_message_type 88) →
      ∀ v, (.error (.unknown_message_type 88) : Except Error Nat) ≠ .ok v)) :=
  ⟨by decide, read_rows_unknown_type_iff sample_block_one sample_stream_bad 6
    ⟨sample_block_null, [1, 2, 9], .error (.unknown_message_type 88)⟩ 88 (by decide)⟩

/-- C9, as amended: when `read_rows` ends with the unknown-message-type error,
nothing is appended for the offending message: the fields of the block are
those it had after the last decoded row, they begin with the fields it had
before the call, and the rows decoded by the call before the header stay
appended. -/
theorem read_rows_unknown_type_fields (b : record_block) (s : Socket) (n : Nat) (r : Run Nat)
    (t : Byte) (h : b.read_rows s n = some r)
    (he : r.result = .error (.unknown_message_type t)) :
    ∃ k b1 s1 next, header_at k b s n = some (b1, s1, next) ∧ next.type = t ∧
      r.block.fields = b1.fields ∧ ∃ more, r.block.fields = b.fields ++ more := by
  rcases read_rows_loop_end _ b s n r h with ⟨e, he2, hne⟩ | ⟨k, b1, s1, next, hk, hb, hcase⟩
  · rw [he2] at he
    cases he
    exact absurd rfl (hne t)
  · rcases hcase with ⟨_, _, _, hres⟩ | ⟨_, _, _, hres⟩ | ⟨h68, h67, _, hres⟩
    · rw [hres] at he; cases he
    · rw [hres] at he; cases he
    · rw [hres] at he
      cases he
      exact ⟨k, b1, s1, next, hk, rfl, by rw [hb], read_rows_loop_fields _ b s n r h⟩

theorem read_rows_unknown_type_fields_witness :
    sample_block_one.read_rows sample_stream_bad 6
      = some ⟨sample_block_null, [1, 2, 9], .error (.unknown_message_type 88)⟩ ∧
    ∃ k b1 s1 next, header_at k sample_block_one sample_stream_bad 6 = some (b1, s1, next) ∧
      next.type = 88 ∧ sample_block_null.fields = b1.fields ∧
      ∃ more, sample_block_null.fields = sample_block_one.fields ++ more :=
  ⟨by decide, read_rows_unknown_type_fields sample_block_one sample_stream_bad 6
    ⟨sample_block_null, [1, 2, 9], .error (.unknown_message_type 88)⟩ 88 (by decide) rfl⟩

/-- C9, the claim as stated fails: a block with no fields decodes a row of one
NULL field and then reads a header with the tag X (88); `read_rows` ends with
the unknown-message-type error and the block holds one field, not none. -/
theorem read_rows_unknown_type_appends :
    sample_block_one.fields = [] ∧
    sample_block_one.read_rows sample_stream_bad 6
      = some ⟨sample_block_null, [1, 2, 9], .error (.unknown_message_type 88)⟩ ∧
    sample_block_null.fields = [byte_view.empty] ∧
    sample_block_null.fields ≠ sample_block_one.fields := by
  decide

/-- C10: every block that is constructed with an arena of `c` bytes, and every
block that `read_data_row` and `read_rows` leave of such a block, whether they
return or fail, has `remaining() + used_bytes() == c`. -/
theorem remaining_add_used_bytes (column_count record_size c : Nat) (b : record_block)
    (h : reachable column_count record_size c b) : b.remaining + b.used_bytes = c := by
  obtain ⟨hlen, hal⟩ := reachable_arena column_count record_size c b h
  simp only [record_block.remaining, record_block.used_bytes, unaligned_slab.remaining,
    unaligned_slab.allocated]
  omega

theorem remaining_add_used_bytes_witness :
    reachable 1 512 16 sample_block_null ∧
      sample_block_null.remaining + sample_block_null.used_bytes = 16 :=
  have hr : reachable 1 512 16 sample_block_null :=
    reachable.read_data_row (record_block.create 1 512 16) sample_stream_big 6
      ⟨sample_block_null, [68, 0, 0, 0, 54, 1, 2, 9], .ok ()⟩ reachable.create (by decide)
  ⟨hr, remaining_add_used_bytes 1 512 16 sample_block_null hr⟩

/-- C11: two transports of the same length that differ at most in their first
two bytes, where the field count of a row body stands, give the same outcome to
`read_data_row` on the same block: both fail with the same error or both
succeed, with the same views appended, the same bytes used and, on success, the
same bytes left on the transport. -/
theorem read_data_row_ignores_count (b : record_block) (s s2 : Socket) (n : Nat)
    (hlen : s.length = s2.length) (htail : s.drop 2 = s2.drop 2) :
    ∃ r r2, b.read_data_row s n = some r ∧ b.read_data_row s2 n = some r2 ∧
      r.result = r2.result ∧ r.block.fields = r2.block.fields ∧
      r.block.used_bytes = r2.block.used_bytes ∧ r.block.remaining = r2.block.remaining ∧
      (r.result = .ok () → r.socket = r2.socket) := by
  by_cases hcap : n ≤ b.remaining
  · by_cases hs : n ≤ s.length
    · have hs2 : n ≤ s2.length := by omega
      obtain ⟨r, hr, hcase, hsock, hal, hmem⟩ := read_data_row_result b s n hcap hs
      obtain ⟨r2, hr2, hcase2, hsock2, hal2, hmem2⟩ := read_data_row_result b s2 n hcap hs2
      have hdrop : (s.take n).drop 2 = (s2.take n).drop 2 := by
        rw [List.drop_take, List.drop_take, htail]
      have hused : r.block.used_bytes = r2.block.used_bytes ∧
          r.block.remaining = r2.block.remaining := by
        simp only [record_block.used_bytes, record_block.remaining, unaligned_slab.allocated,
          unaligned_slab.remaining, hal, hal2, hmem, hmem2, and_self]
      rcases hcase with ⟨hn, hres, hf⟩ | ⟨hn, fields, res, hd, hf, hres⟩
      · rcases hcase2 with ⟨_, hres2, hf2⟩ | ⟨hn2, _⟩
        · refine ⟨r, r2, hr, hr2, by rw [hres, hres2], ?_, hused.1, hused.2, ?_⟩
          · simp only [record_block.fields, hf, hf2]
          · intro hok; rw [hres] at hok; cases hok
        · exact absurd hn2 hn
      · rcases hcase2 with ⟨hn2, _⟩ | ⟨_, fields2, res2, hd2, hf2, hres2⟩
        · exact absurd hn hn2
        · rw [hdrop, hd2] at hd
          simp only [Option.some.injEq, Prod.mk.injEq] at hd
          obtain ⟨e1, e2⟩ := hd
          subst e1 e2
          refine ⟨r, r2, hr, hr2, by rw [hres, hres2], ?_, hused.1, hused.2, ?_⟩
          · simp only [record_block.fields, hf, hf2]
          · intro _
            rw [hsock, hsock2]
            have h1 : s.drop n = (s.drop 2).drop (n - 2) := by
              rw [List.drop_drop]; congr 1; omega
            have h2 : s2.drop n = (s2.drop 2).drop (n - 2) := by
              rw [List.drop_drop]; congr 1; omega
            rw [h1, h2, htail]
    · have hs2 : ¬ n ≤ s2.length := by omega
      refine ⟨⟨{ b with m_buffer := ⟨b.m_buffer.memory, b.m_buffer.m_allocated + n⟩ }, [],
          .error .transport_closed⟩,
        ⟨{ b with m_buffer := ⟨b.m_buffer.memory, b.m_buffer.m_allocated + n⟩ }, [],
          .error .transport_closed⟩, ?_, ?_, rfl, rfl, rfl, rfl, ?_⟩
      · unfold record_block.read_data_row
        simp only [hcap, not_true_eq_false, if_false, unaligned_slab.allocate, transfer, hs]
      · unfold record_block.read_data_row
        simp only [hcap, not_true_eq_false, if_false, unaligned_slab.allocate, transfer, hs2]
      · intro hok; cases hok
  · refine ⟨⟨b, s, .error .capacity_exceeded⟩, ⟨b, s2, .error .capacity_exceeded⟩,
      ?_, ?_, rfl, rfl, rfl, rfl, ?_⟩
    · unfold record_block.read_data_row
      simp only [hcap, not_false_eq_true, if_true]
    · unfold record_block.read_data_row
      simp only [hcap, not_false_eq_true, if_true]
    · intro hok; cases hok

theorem read_data_row_ignores_count_witness :
    sample_stream_ab.length = sample_stream_ab_other.length ∧
    sample_stream_ab.drop 2 = sample_stream_ab_other.drop 2 ∧
    sample_stream_ab ≠ sample_stream_ab_other ∧
    ∃ r r2, sample_block_two.read_data_row sample_stream_ab 12 = some r ∧
      sample_block_two.read_data_row sample_stream_ab_other 12 = some r2 ∧
      r.result = r2.result ∧ r.block.fields = r2.block.fields ∧
      r.block.used_bytes = r2.block.used_bytes ∧ r.block.remaining = r2.block.remaining ∧
      (r.result = .ok () → r.socket = r2.socket) :=
  ⟨by decide, by decide, by decide,
    read_data_row_ignores_count sample_block_two sample_stream_ab sample_stream_ab_other 12
      (by decide) (by decide)⟩

/-- C12: the conversion to bool of a block is true exactly when its column
count is positive; the default constructed block converts to false; and a
block constructed with at least one column converts to true, as does every
block that `read_data_row` and `read_rows` leave of it. -/
theorem to_bool_iff_columns (column_count record_size capacity : Nat) (b : record_block)
    (hc : 1 ≤ column_count) (hb : reachable column_count record_size capacity b) :
    (∀ x : record_block, x.to_bool = true ↔ x.m_columns > 0) ∧
    record_block.empty.to_bool = false ∧
    (record_block.create column_count record_size capacity).to_bool = true ∧
    b.to_bool = true := by
  have hcols := reachable_columns column_count record_size capacity b hb
  refine ⟨fun x => by simp [record_block.to_bool], by decide, ?_, ?_⟩
  · simp only [record_block.to_bool, record_block.create, decide_eq_true_eq]
    omega
  · simp only [record_block.to_bool, hcols, decide_eq_true_eq]
    omega

theorem to_bool_iff_columns_witness :
    1 ≤ 1 ∧ reachable 1 512 16 sample_block_null ∧
    ((∀ x : record_block, x.to_bool = true ↔ x.m_columns > 0) ∧
    record_block.empty.to_bool = false ∧
    (record_block.create 1 512 16).to_bool = true ∧
    sample_block_null.to_bool = true) :=
  have hr : reachable 1 512 16 sample_block_null :=
    reachable.read_rows (record_block.create 1 512 16) sample_stream_big 6
      ⟨sample_block_null, [1, 2, 9], .ok 50⟩ reachable.create (by decide)
  ⟨by decide, hr, to_bool_iff_columns 1 512 16 sample_block_null (by decide) hr⟩

/-- C13: when `read_rows` is entered with `bytes <= remaining()` on a block that
uses no more than its arena has, every pass of the loop starts its
`read_data_row` with a byte count that fits in what remains, so that call does
not fail the capacity assertion; `read_rows` itself ends without that failure,
and the used bytes stay within the capacity of the arena throughout. -/
theorem read_rows_within_budget (b : record_block) (s : Socket) (n : Nat)
    (hfirst : n ≤ b.remaining) (hwf : b.used_bytes ≤ b.m_buffer.capacity) :
    (∀ k bk sk nk, read_rows_at k b s n = some (bk, sk, nk) →
      nk ≤ bk.remaining ∧ bk.used_bytes ≤ b.m_buffer.capacity ∧
      ∀ r1, bk.read_data_row sk nk = some r1 →
        r1.result ≠ .error .capacity_exceeded ∧ r1.block.used_bytes ≤ b.m_buffer.capacity) ∧
    (∃ r, b.read_rows s n = some r ∧ r.result ≠ .error .capacity_exceeded ∧
      r.block.used_bytes ≤ b.m_buffer.capacity ∧
      r.block.m_buffer.capacity = b.m_buffer.capacity) := by
  simp only [record_block.used_bytes, unaligned_slab.allocated, unaligned_slab.capacity]
    at hwf ⊢
  refine ⟨?_, ?_⟩
  · intro k bk sk nk hat
    have hinv := read_rows_at_invariant
      (fun x => x.m_buffer.memory.length = b.m_buffer.memory.length ∧
        x.m_buffer.m_allocated ≤ b.m_buffer.memory.length)
      (fun b2 s2 n2 r2 hP h2 => read_data_row_arena _ b2 s2 n2 r2 hP h2)
      k b s n bk sk nk ⟨rfl, hwf⟩ hat
    have hfit : nk ≤ bk.remaining := by
      cases k with
      | zero =>
        simp only [read_rows_at, Option.some.injEq, Prod.mk.injEq] at hat
        obtain ⟨e1, -, e3⟩ := hat
        subst e1 e3
        exact hfirst
      | succ k =>
        obtain ⟨_, _, _, _, _, _, hle⟩ := read_rows_at_last k b s n _ _ _ hat
        exact hle
    refine ⟨hfit, hinv.2, ?_⟩
    intro r1 hrd
    exact ⟨read_data_row_capacity bk sk nk r1 hfit hrd,
      (read_data_row_arena _ bk sk nk r1 hinv hrd).2⟩
  · obtain ⟨r, hr⟩ := read_rows_total b s n
    have hinv := read_rows_loop_invariant
      (fun x => x.m_buffer.memory.length = b.m_buffer.memory.length ∧
        x.m_buffer.m_allocated ≤ b.m_buffer.memory.length)
      (fun b2 s2 n2 r2 hP h2 => read_data_row_arena _ b2 s2 n2 r2 hP h2)
      _ b s n r ⟨rfl, hwf⟩ hr
    exact ⟨r, hr, read_rows_loop_capacity _ b s n r hfirst hr, hinv.2, hinv.1⟩

theorem read_rows_within_budget_witness :
    6 ≤ sample_block_one.remaining ∧
    sample_block_one.used_bytes ≤ sample_block_one.m_buffer.capacity ∧
    ((∀ k bk sk nk, read_rows_at k sample_block_one sample_stream_big 6 = some (bk, sk, nk) →
      nk ≤ bk.remaining ∧ bk.used_bytes ≤ sample_block_one.m_buffer.capacity ∧
      ∀ r1, bk.read_data_row sk nk = some r1 →
        r1.result ≠ .error .capacity_exceeded ∧
        r1.block.used_bytes ≤ sample_block_one.m_buffer.capacity) ∧
    (∃ r, sample_block_one.read_rows sample_stream_big 6 = some r ∧
      r.result ≠ .error .capacity_exceeded ∧
      r.block.used_bytes ≤ sample_block_one.m_buffer.capacity ∧
      r.block.m_buffer.capacity = sample_block_one.m_buffer.capacity)) :=
  ⟨by decide, by decide,
    read_rows_within_budget sample_block_one sample_stream_big 6 (by decide) (by decide)⟩

/-- C14: a successful `read_data_row(bytes)` raises `used_bytes()` by exactly
`bytes`, lowers `remaining()` by exactly `bytes` and takes exactly the first
`bytes` bytes off the transport; and when a `read_rows` that starts with that
row returns, `used_bytes()` has grown by the sum of the byte counts of the rows
that its passes decoded. -/
theorem read_data_row_takes_bytes (b : record_block) (s : Socket) (n : Nat) (r : Run Unit)
    (h : b.read_data_row s n = some r) (hok : r.result = .ok ()) :
    r.block.used_bytes = b.used_bytes + n ∧ r.block.remaining + n = b.remaining ∧
    n ≤ s.length ∧ r.socket = s.drop n ∧
    (∀ k b1 s1 next, header_at k b s n = some (b1, s1, next) →
      (decoded_sizes k b s n).length = k + 1 ∧
      b1.used_bytes = b.used_bytes + (decoded_sizes k b s n).sum) ∧
    (∀ r2 v, b.read_rows s n = some r2 → r2.result = .ok v →
      ∃ k, (decoded_sizes k b s n).length = k + 1 ∧
        (∃ s1 next, header_at k b s n = some (r2.block, s1, next)) ∧
        r2.block.used_bytes = b.used_bytes + (decoded_sizes k b s n).sum) := by
  obtain ⟨-, hu, hrem, -⟩ := read_data_row_ok_size b s n r h hok
  obtain ⟨-, hs, -, -, -, -, -, -, hsock, -⟩ := read_data_row_ok b s n r h hok
  refine ⟨hu, hrem, hs, hsock, ?_, ?_⟩
  · intro k b1 s1 next hk
    exact ⟨by simp [decoded_sizes], (decoded_sizes_sum k b s n b1 s1 next hk).1⟩
  · intro r2 v hr2 hv
    rcases read_rows_loop_end _ b s n r2 hr2 with ⟨e, he, -⟩ | ⟨k, b1, s1, next, hk, hb, -⟩
    · rw [he] at hv; cases hv
    · subst hb
      exact ⟨k, by simp [decoded_sizes], ⟨s1, next, hk⟩,
        (decoded_sizes_sum k b s n _ s1 next hk).1⟩

theorem read_data_row_takes_bytes_witness :
    sample_block_two.read_data_row sample_stream_ab 12
      = some ⟨sample_block_ab, [67, 0, 0, 0, 6, 1, 2, 9], .ok ()⟩ ∧
    decoded_sizes 0 sample_block_two sample_stream_ab 12 = [12] ∧
    (sample_block_ab.used_bytes = sample_block_two.used_bytes + 12 ∧
    sample_block_ab.remaining + 12 = sample_block_two.remaining ∧
    12 ≤ sample_stream_ab.length ∧
    ([67, 0, 0, 0, 6, 1, 2, 9] : Socket) = sample_stream_ab.drop 12 ∧
    (∀ k b1 s1 next, header_at k sample_block_two sample_stream_ab 12 = some (b1, s1, next) →
      (decoded_sizes k sample_block_two sample_stream_ab 12).length = k + 1 ∧
      b1.used_bytes
        = sample_block_two.used_bytes
          + (decoded_sizes k sample_block_two sample_stream_ab 12).sum) ∧
    (∀ r2 v, sample_block_two.read_rows sample_stream_ab 12 = some r2 → r2.result = .ok v →
      ∃ k, (decoded_sizes k sample_block_two sample_stream_ab 12).length = k + 1 ∧
        (∃ s1 next, header_at k sample_block_two sample_stream_ab 12
          = some (r2.block, s1, next)) ∧
        r2.block.used_bytes
          = sample_block_two.used_bytes
            + (decoded_sizes k sample_block_two sample_stream_ab 12).sum)) :=
  ⟨by decide, by decide,
    read_data_row_takes_bytes sample_block_two sample_stream_ab 12
      ⟨sample_block_ab, [67, 0, 0, 0, 6, 1, 2, 9], .ok ()⟩ (by decide) rfl⟩

/-- C16: when `read_data_row(bytes)` succeeds, the views it appends account for
every byte of the row: two bytes of field count, four bytes of length tag per
view and the bytes of the views add up to `bytes`.  The views tile the region
allocated for the row behind the field count; each view that is not the
zero-length view of a NULL lies in that region, each starts at least four bytes
after the end of every such view before it, and none shares a byte with a
length tag. -/
theorem read_data_row_accounting (b : record_block) (s : Socket) (n : Nat) (r : Run Unit)
    (h : b.read_data_row s n = some r) (hok : r.result = .ok ()) :
    ∃ more, r.block.fields = b.fields ++ more ∧
      2 + 4 * more.length + (more.map byte_view.size).sum = n ∧
      tiles (b.used_bytes + 2) more (b.used_bytes + n) ∧
      (∀ v ∈ more, v ≠ byte_view.empty →
        b.used_bytes + 6 ≤ v.offset ∧ v.offset + v.size ≤ b.used_bytes + n) ∧
      List.Pairwise (fun v w => v ≠ byte_view.empty → w ≠ byte_view.empty →
        v.offset + v.size + 4 ≤ w.offset) more ∧
      (∀ t ∈ tag_offsets (b.used_bytes + 2) more, t + 4 ≤ b.used_bytes + n ∧
        ∀ v ∈ more, v ≠ byte_view.empty → t + 4 ≤ v.offset ∨ v.offset + v.size ≤ t) := by
  obtain ⟨-, hs, c0, c1, body, htake, hd, -, -, -⟩ := read_data_row_ok b s n r h hok
  have hlen : (s.take n).length = n := by simp; omega
  rw [htake] at hlen
  simp only [List.length_cons] at hlen
  obtain ⟨more, hm, -, ht⟩ := decode_fields_layout _ _ _ _ _ hd
  have htile : tiles (b.used_bytes + 2) more (b.used_bytes + n) := by
    have := ht rfl
    simp only at this
    rw [show b.m_buffer.m_allocated + 2 + body.length = b.m_buffer.m_allocated + n by omega]
      at this
    exact this
  have hsum := tiles_sum more _ _ htile
  have hreg := tiles_region more _ _ htile
  refine ⟨more, hm, by omega, htile, ?_, tiles_ordered more _ _ htile,
    tiles_tags more _ _ htile⟩
  intro v hv hne
  have := hreg.2 v hv hne
  omega

theorem read_data_row_accounting_witness :
    sample_block_two.read_data_row sample_stream_ab 12
      = some ⟨sample_block_ab, [67, 0, 0, 0, 6, 1, 2, 9], .ok ()⟩ ∧
    sample_block_ab.fields = sample_block_two.fields ++ [⟨6, 2⟩, byte_view.empty] ∧
    ∃ more, sample_block_ab.fields = sample_block_two.fields ++ more ∧
      2 + 4 * more.length + (more.map byte_view.size).sum = 12 ∧
      tiles (sample_block_two.used_bytes + 2) more (sample_block_two.used_bytes + 12) ∧
      (∀ v ∈ more, v ≠ byte_view.empty →
        sample_block_two.used_bytes + 6 ≤ v.offset ∧
        v.offset + v.size ≤ sample_block_two.used_bytes + 12) ∧
      List.Pairwise (fun v w => v ≠ byte_view.empty → w ≠ byte_view.empty →
        v.offset + v.size + 4 ≤ w.offset) more ∧
      (∀ t ∈ tag_offsets (sample_block_two.used_bytes + 2) more,
        t + 4 ≤ sample_block_two.used_bytes + 12 ∧
        ∀ v ∈ more, v ≠ byte_view.empty → t + 4 ≤ v.offset ∨ v.offset + v.size ≤ t) :=
  ⟨by decide, by decide,
    read_data_row_accounting sample_block_two sample_stream_ab 12
      ⟨sample_block_ab, [67, 0, 0, 0, 6, 1, 2, 9], .ok ()⟩ (by decide) rfl⟩

/-- C17: on every block that comes from a constructed block, `read_data_row`
and `read_rows`, whether they succeed or fail, only append: the fields before
the call are the first fields after it, with the same offsets and lengths, they
still refer to the same bytes, and the column count is the same. -/
theorem fields_append_only (column_count record_size capacity : Nat) (b : record_block)
    (s : Socket) (n : Nat) (hb : reachable column_count record_size capacity b) :
    (∀ r, b.read_data_row s n = some r →
      (∃ more, r.block.fields = b.fields ++ more) ∧
      b.fields.map (view_bytes r.block.m_buffer.memory) = b.field_values ∧
      r.block.m_columns = b.m_columns) ∧
    (∀ r, b.read_rows s n = some r →
      (∃ more, r.block.fields = b.fields ++ more) ∧
      b.fields.map (view_bytes r.block.m_buffer.memory) = b.field_values ∧
      r.block.m_columns = b.m_columns) := by
  obtain ⟨hal, hv⟩ := reachable_views column_count record_size capacity b hb
  refine ⟨?_, ?_⟩
  · intro r hr
    obtain ⟨-, -, -, hkeep⟩ := read_data_row_keep b s n r hal hv hr
    exact ⟨read_data_row_fields b s n r hr,
      map_view_bytes_eq _ _ _ (fun v hvm => hkeep v (hv v hvm)),
      read_data_row_columns b s n r hr⟩
  · intro r hr
    have hkeep := read_rows_loop_keep _ b s n r hal hv hr
    exact ⟨read_rows_loop_fields _ b s n r hr,
      map_view_bytes_eq _ _ _ (fun v hvm => hkeep v (hv v hvm)),
      read_rows_loop_columns _ b s n r hr⟩

theorem fields_append_only_witness :
    reachable 1 512 16 sample_block_null ∧
    sample_block_null.fields = [byte_view.empty] ∧
    (sample_block_null.read_rows sample_stream_seven 7).map (fun r => (r.block.fields, r.result))
      = some ([byte_view.empty, ⟨12, 1⟩], .ok 0) ∧
    ((∀ r, sample_block_null.read_data_row sample_stream_seven 7 = some r →
      (∃ more, r.block.fields = sample_block_null.fields ++ more) ∧
      sample_block_null.fields.map (view_bytes r.block.m_buffer.memory)
        = sample_block_null.field_values ∧
      r.block.m_columns = sample_block_null.m_columns) ∧
    (∀ r, sample_block_null.read_rows sample_stream_seven 7 = some r →
      (∃ more, r.block.fields = sample_block_null.fields ++ more) ∧
      sample_block_null.fields.map (view_bytes r.block.m_buffer.memory)
        = sample_block_null.field_values ∧
      r.block.m_columns = sample_block_null.m_columns)) :=
  have hr : reachable 1 512 16 sample_block_null :=
    reachable.read_rows (record_block.create 1 512 16) sample_stream_big 6
      ⟨sample_block_null, [1, 2, 9], .ok 50⟩ reachable.create (by decide)
  ⟨hr, by decide, by decide, fields_append_only 1 512 16 sample_block_null sample_stream_seven 7 hr⟩

/-- C18: let a row body of fewer than 2^63 bytes that fits in the block consist
of two bytes of field count, well-formed fields, and then bytes that are not a
field: a length below -1, a length above the number of bytes that follow its
tag, or one to three bytes where a four-byte length should stand.  Then
`read_data_row` ends with the read-past-the-end failure of the cursor; it has
appended the views of the well-formed fields and nothing for the rest, neither
a NULL nor a shortened view.  A body of fewer than two bytes, where the field
count should stand, fails the same way with no view appended. -/
theorem read_data_row_bad_length (b : record_block) (c0 c1 : Byte) (pre : List Field)
    (tail after : List Byte)
    (hpre : ∀ f ∈ pre, ∀ value, f = some value → value.length < 2 ^ 31)
    (hbad : bad_field tail)
    (hsize : 2 + (encode_fields pre).length + tail.length < 2 ^ 63)
    (hcap : 2 + (encode_fields pre).length + tail.length ≤ b.remaining) :
    b.read_data_row (c0 :: c1 :: (encode_fields pre ++ tail) ++ after)
        (2 + (encode_fields pre).length + tail.length)
      = some ⟨⟨b.m_columns, b.m_fields ++ field_views (b.m_buffer.m_allocated + 2) pre,
          ⟨store_bytes b.m_buffer.memory b.m_buffer.m_allocated
              (c0 :: c1 :: (encode_fields pre ++ tail)),
            b.m_buffer.m_allocated + (2 + (encode_fields pre).length + tail.length)⟩⟩,
          after, .error .read_past_end⟩ ∧
    (∀ (s2 : Socket) (n2 : Nat), n2 < 2 → n2 ≤ b.remaining → n2 ≤ s2.length →
      ∃ r, b.read_data_row s2 n2 = some r ∧ r.result = .error .read_past_end ∧
        r.block.fields = b.fields) := by
  refine ⟨?_, ?_⟩
  · have hbody : (c0 :: c1 :: (encode_fields pre ++ tail)).length
        = 2 + (encode_fields pre).length + tail.length := by
      simp only [List.length_cons, List.length_append]; omega
    have hs : 2 + (encode_fields pre).length + tail.length
        ≤ (c0 :: c1 :: (encode_fields pre ++ tail) ++ after).length := by
      rw [List.length_append, hbody]; omega
    have htake : (c0 :: c1 :: (encode_fields pre ++ tail) ++ after).take
        (2 + (encode_fields pre).length + tail.length)
        = c0 :: c1 :: (encode_fields pre ++ tail) := List.take_left' hbody
    have hdrop : (c0 :: c1 :: (encode_fields pre ++ tail) ++ after).drop
        (2 + (encode_fields pre).length + tail.length) = after := List.drop_left' hbody
    have htail : 0 < tail.length := by
      cases tail with
      | nil => simp [bad_field] at hbad
      | cons x xs => simp
    have hpl := length_encode_fields pre
    obtain ⟨f, hf⟩ : ∃ f, (encode_fields pre ++ tail).length = pre.length + (f + 1) :=
      ⟨(encode_fields pre).length + tail.length - pre.length - 1, by
        rw [List.length_append]; omega⟩
    rw [read_data_row_unfold b _ _ hcap hs, htake, hdrop]
    simp only [decoder.read_int16, decoder.remaining]
    rw [hf, decode_fields_encoded_then pre _ _ (f + 1) tail hpre,
      decode_fields_bad f _ _ tail hbad (by omega)]
  · intro s2 n2 hn hcap2 hs2
    obtain ⟨r, hr, hcase, -⟩ := read_data_row_result b s2 n2 hcap2 hs2
    rcases hcase with ⟨-, hres, hfields⟩ | ⟨h2, -⟩
    · exact ⟨r, hr, hres, hfields⟩
    · omega

theorem read_data_row_bad_length_witness :
    (∀ f ∈ ([none] : List Field), ∀ value, f = some value → value.length < 2 ^ 31) ∧
    bad_field [255, 255, 255, 254] ∧
    to_int32 (be_uint32 255 255 255 254) = -2 ∧
    2 + (encode_fields [none]).length + ([255, 255, 255, 254] : List Byte).length < 2 ^ 63 ∧
    2 + (encode_fields [none]).length + ([255, 255, 255, 254] : List Byte).length
      ≤ sample_block_one.remaining ∧
    (0 :: 1 :: (encode_fields [none] ++ [255, 255, 255, 254]) ++ [7] : Socket)
      = sample_stream_negative ∧
    (sample_block_one.read_data_row
        (0 :: 1 :: (encode_fields [none] ++ [255, 255, 255, 254]) ++ [7])
        (2 + (encode_fields [none]).length + ([255, 255, 255, 254] : List Byte).length)
      = some ⟨⟨sample_block_one.m_columns,
          sample_block_one.m_fields
            ++ field_views (sample_block_one.m_buffer.m_allocated + 2) [none],
          ⟨store_bytes sample_block_one.m_buffer.memory sample_block_one.m_buffer.m_allocated
              (0 :: 1 :: (encode_fields [none] ++ [255, 255, 255, 254])),
            sample_block_one.m_buffer.m_allocated
              + (2 + (encode_fields [none]).length
                + ([255, 255, 255, 254] : List Byte).length)⟩⟩,
          [7], .error .read_past_end⟩ ∧
    (∀ (s2 : Socket) (n2 : Nat), n2 < 2 → n2 ≤ sample_block_one.remaining → n2 ≤ s2.length →
      ∃ r, sample_block_one.read_data_row s2 n2 = some r ∧ r.result = .error .read_past_end ∧
        r.block.fields = sample_block_one.fields)) :=
  ⟨by decide, by decide, by decide, by decide, by decide, by decide,
    read_data_row_bad_length sample_block_one 0 1 [none] [255, 255, 255, 254] [7]
      (by decide) (by decide) (by decide) (by decide)⟩

end pgasio
